import Mathlib

/-!
# Verification of the Convex / TanStack DB collection sync core

Shallow embedding of the repository's source:

* `serialization.ts` — value codec (`serializeValue`, `deserializeValue`,
  `toKey`, `fromKey`);
* `expression-parser.ts` — predicate extractor (`walkExpression`,
  `extractFilterValues`, `extractMultipleFilterValues`);
* `ConvexSyncManager.ts` — the sync manager (`requestFilters`,
  `releaseFilters`, `cleanupUnreferencedValues`, `processFilterBatch`,
  `handleIncomingData`, `updateSubscription`);
* `index.ts` — the collection adapter's `loadSubset`.

Modelling conventions:

* JavaScript runtime values are the inductive `JSValue`.  Finite numbers are
  modelled as integers (`Int`); the special numeric values `NaN`, `+Infinity`
  and `-Infinity` are separate constructors, exactly the case distinctions the
  source makes.  A `Date` is modelled by the string its `toJSON()` produces.
* JavaScript objects are association lists in insertion order (JS objects and
  `Map`s preserve insertion order); `Set`s are duplicate-free lists in
  insertion order.
* `JSON.stringify` / `JSON.parse` of the codec are modelled by an executable
  printer (`stringifyJson`) and an executable fuelled reader (`parseJson`)
  over `List Char`; the stable string key is the character list.
* Asynchrony is flattened to the single-threaded cooperative model the spec
  describes: each `async` suspension point becomes an explicit sequencing of
  pure state transformers, and a backfill query's outcome is a boolean
  parameter (its data flow goes through `handleIncomingData`).
-/

/-! ## Value codec (`serialization.ts`) -/

/-- A JavaScript runtime value, as far as the codec distinguishes them. -/
inductive JSValue where
  | undef : JSValue
  | null : JSValue
  | bool : Bool → JSValue
  | num : Int → JSValue
  | nan : JSValue
  | posInf : JSValue
  | negInf : JSValue
  | str : String → JSValue
  | date : String → JSValue
  | arr : List JSValue → JSValue
  | obj : List (String × JSValue) → JSValue

/-- A JSON-safe value: what `serializeValue` produces and `JSON.parse` yields. -/
inductive JsonValue where
  | null : JsonValue
  | bool : Bool → JsonValue
  | num : Int → JsonValue
  | str : String → JsonValue
  | arr : List JsonValue → JsonValue
  | obj : List (String × JsonValue) → JsonValue

/-- First-match lookup in an association list (JS object property access /
`Map.prototype.get`). -/
def mapGet {κ β : Type} [DecidableEq κ] : List (κ × β) → κ → Option β
  | [], _ => none
  | (k', v) :: rest, k => if k' = k then some v else mapGet rest k

/-- `serializeValue` from `serialization.ts`: maps special primitives to tagged
marker objects and recurses through arrays and plain objects. -/
def serializeValue : JSValue → JsonValue
  | .undef => .obj [("__type", .str "undefined")]
  | .nan => .obj [("__type", .str "nan")]
  | .posInf => .obj [("__type", .str "infinity"), ("sign", .num 1)]
  | .negInf => .obj [("__type", .str "infinity"), ("sign", .num (-1))]
  | .null => .null
  | .bool b => .bool b
  | .num n => .num n
  | .str s => .str s
  | .date iso => .obj [("__type", .str "date"), ("value", .str iso)]
  | .arr items => .arr (serializeList items)
  | .obj fields => .obj (serializeFields fields)
where
  serializeList : List JSValue → List JsonValue
    | [] => []
    | v :: vs => serializeValue v :: serializeList vs
  serializeFields : List (String × JSValue) → List (String × JsonValue)
    | [] => []
    | (k, v) :: fs => (k, serializeValue v) :: serializeFields fs

/-- The identity injection of a JSON value back into `JSValue`; used where the
source's `deserializeValue` returns a value unchanged. -/
def jsonToJs : JsonValue → JSValue
  | .null => .null
  | .bool b => .bool b
  | .num n => .num n
  | .str s => .str s
  | .arr items => .arr (jsonList items)
  | .obj fields => .obj (jsonFields fields)
where
  jsonList : List JsonValue → List JSValue
    | [] => []
    | v :: vs => jsonToJs v :: jsonList vs
  jsonFields : List (String × JsonValue) → List (String × JSValue)
    | [] => []
    | (k, v) :: fs => (k, jsonToJs v) :: jsonFields fs

/-- `isTypeMarker` from `serialization.ts`: an object with a string-valued
`__type` property. -/
def typeMarkerTag : JsonValue → Option String
  | .obj fields =>
      match mapGet fields "__type" with
      | some (.str t) => some t
      | _ => none
  | _ => none

/-- `deserializeValue` from `serialization.ts`.  An unknown marker tag returns
the object unchanged; `new Date(x)` is only modelled for the string payloads
the serializer produces. -/
def deserializeValue : JsonValue → JSValue
  | .null => .null
  | .bool b => .bool b
  | .num n => .num n
  | .str s => .str s
  | .arr items => .arr (deserializeList items)
  | .obj fields =>
      match mapGet fields "__type" with
      | some (.str t) =>
          if t = "undefined" then .undef
          else if t = "nan" then .nan
          else if t = "infinity" then
            match mapGet fields "sign" with
            | some (.num 1) => .posInf
            | _ => .negInf
          else if t = "date" then
            match mapGet fields "value" with
            | some (.str s) => .date s
            | _ => .date ""
          else jsonToJs (.obj fields)
      | _ => .obj (deserializeFields fields)
where
  deserializeList : List JsonValue → List JSValue
    | [] => []
    | v :: vs => deserializeValue v :: deserializeList vs
  deserializeFields : List (String × JsonValue) → List (String × JSValue)
    | [] => []
    | (k, v) :: fs => (k, deserializeValue v) :: deserializeFields fs

/-! ## The stable string key (`toKey` / `fromKey`) -/

/-- The character `{` (written by code point to keep braces out of literals). -/
def lbrace : Char := Char.ofNat 123

/-- The character `}`. -/
def rbrace : Char := Char.ofNat 125

/-- Decimal digits of a natural number, most significant first.  Fuelled so
that kernel reduction stays structural; `natChars` supplies enough fuel. -/
def natCharsAux : Nat → Nat → List Char
  | 0, _ => []
  | fuel + 1, n =>
      if n < 10 then [Char.ofNat (48 + n)]
      else natCharsAux fuel (n / 10) ++ [Char.ofNat (48 + n % 10)]

/-- Decimal representation of a natural number, as `JSON.stringify` prints an
integral number. -/
def natChars (n : Nat) : List Char := natCharsAux (n + 1) n

/-- Decimal representation of an integer. -/
def intChars (n : Int) : List Char :=
  if n < 0 then '-' :: natChars n.natAbs else natChars n.natAbs

/-- JSON string-body escaping: quote and backslash get a backslash prefix
(the only escapes the codec's values need). -/
def escapeChars : List Char → List Char
  | [] => []
  | c :: cs =>
      if c = '"' ∨ c = '\\' then '\\' :: c :: escapeChars cs
      else c :: escapeChars cs

/-- `JSON.stringify` on JSON-safe values, producing the stable key's
characters: no whitespace, object properties in insertion order. -/
def stringifyJson : JsonValue → List Char
  | .null => "null".data
  | .bool b => if b then "true".data else "false".data
  | .num n => intChars n
  | .str s => '"' :: (escapeChars s.data ++ ['"'])
  | .arr items => '[' :: (stringifyArr items ++ [']'])
  | .obj fields => lbrace :: (stringifyObj fields ++ [rbrace])
where
  stringifyArr : List JsonValue → List Char
    | [] => []
    | [v] => stringifyJson v
    | v :: vs => stringifyJson v ++ ',' :: stringifyArr vs
  stringifyObj : List (String × JsonValue) → List Char
    | [] => []
    | [(k, v)] => '"' :: (escapeChars k.data ++ '"' :: ':' :: stringifyJson v)
    | (k, v) :: fs =>
        ('"' :: (escapeChars k.data ++ '"' :: ':' :: stringifyJson v)) ++
          ',' :: stringifyObj fs

/-- `toKey` from `serialization.ts`: `JSON.stringify(serializeValue(value))`,
the canonical string key (modelled as its character list). -/
def toKey (value : JSValue) : List Char := stringifyJson (serializeValue value)

/-- One expected literal token stripped from the front of the input. -/
def stripLit : List Char → List Char → Option (List Char)
  | [], cs => some cs
  | _ :: _, [] => none
  | t :: ts, c :: cs => if c = t then stripLit ts cs else none

/-- The body of a JSON string up to its closing quote, unescaping the
backslash escapes the printer emits. -/
def parseStrBody : Nat → List Char → Option (List Char × List Char)
  | 0, _ => none
  | _, '"' :: tl => some ([], tl)
  | n + 1, '\\' :: e :: tl =>
      (parseStrBody n tl).map (fun br => (e :: br.1, br.2))
  | n + 1, c :: tl =>
      (parseStrBody n tl).map (fun br => (c :: br.1, br.2))
  | _, [] => none

/-- Digit test for the number reader. -/
def isDigitChar (c : Char) : Bool := 48 ≤ c.toNat ∧ c.toNat ≤ 57

/-- Numeric value of a digit run. -/
def digitsToNat (ds : List Char) : Nat :=
  ds.foldl (fun acc c => acc * 10 + (c.toNat - 48)) 0

/-- A non-empty decimal digit run read off the input. -/
def readNat (cs : List Char) : Option (Nat × List Char) :=
  match cs.span isDigitChar with
  | (ds, tl) => if ds.isEmpty then none else some (digitsToNat ds, tl)

/-- Fuelled `JSON.parse` for the fragment `JSON.stringify` emits: `null`,
booleans, integers, strings, arrays, objects; no whitespace. -/
def parseJson : Nat → List Char → Option (JsonValue × List Char)
  | 0, _ => none
  | fuel + 1, cs =>
      match cs with
      | [] => none
      | c :: tl =>
          if c = 'n' then
            (stripLit ['u', 'l', 'l'] tl).map (fun r => (.null, r))
          else if c = 't' then
            (stripLit ['r', 'u', 'e'] tl).map (fun r => (.bool true, r))
          else if c = 'f' then
            (stripLit ['a', 'l', 's', 'e'] tl).map (fun r => (.bool false, r))
          else if c = '"' then
            (parseStrBody (fuel + 1) tl).map
              (fun br => (.str (String.mk br.1), br.2))
          else if c = '[' then
            match tl with
            | ']' :: r => some (.arr [], r)
            | _ => (parseArrItems fuel tl).map (fun vr => (.arr vr.1, vr.2))
          else if c = lbrace then
            match tl with
            | [] => none
            | c' :: r =>
                if c' = rbrace then some (.obj [], r)
                else (parseObjFields fuel (c' :: r)).map
                  (fun fr => (.obj fr.1, fr.2))
          else if c = '-' then
            (readNat tl).map (fun nr => (.num (-(nr.1 : Int)), nr.2))
          else
            (readNat (c :: tl)).map (fun nr => (.num (nr.1 : Int), nr.2))
where
  parseArrItems : Nat → List Char → Option (List JsonValue × List Char)
    | 0, _ => none
    | fuel + 1, cs =>
        match parseJson fuel cs with
        | none => none
        | some (v, r) =>
            match r with
            | ']' :: r' => some ([v], r')
            | ',' :: r' => (parseArrItems fuel r').map
                (fun vr => (v :: vr.1, vr.2))
            | _ => none
  parseObjFields : Nat → List Char → Option (List (String × JsonValue) × List Char)
    | 0, _ => none
    | fuel + 1, '"' :: cs =>
        match parseStrBody (fuel + 1) cs with
        | none => none
        | some (kcs, r) =>
            match r with
            | ':' :: r' =>
                match parseJson fuel r' with
                | none => none
                | some (v, r2) =>
                    if r2.headD ' ' = rbrace then
                      some ([(String.mk kcs, v)], r2.tail)
                    else
                      match r2 with
                      | ',' :: r3 => (parseObjFields fuel r3).map
                          (fun fr => ((String.mk kcs, v) :: fr.1, fr.2))
                      | _ => none
            | _ => none
    | _, _ => none

/-- `fromKey` from `serialization.ts`:
`deserializeValue(JSON.parse(key))`; `none` models the `JSON.parse` throw. -/
def fromKey (key : List Char) : Option JSValue :=
  match parseJson (key.length + 1) key with
  | some (j, []) => some (deserializeValue j)
  | _ => none

/-! ## Deep structural equality (specification-side notion for C8)

JavaScript deep structural equality — the notion the spec appeals to — treats
`NaN` as equal to itself, compares dates by their time value, compares arrays
position-wise, and compares plain objects by key *sets* (property order does
not participate).  We model it as equality of canonical forms, where the
canonical form recursively sorts object properties by key. -/

/-- Lexicographic comparison of character lists by code point. -/
def charListLe : List Char → List Char → Bool
  | [], _ => true
  | _, [] => false
  | a :: as, b :: bs =>
      if a.toNat = b.toNat then charListLe as bs else a.toNat < b.toNat

/-- String comparison used for deterministic sorting (JS default sort order). -/
def strLe (a b : String) : Bool := charListLe a.data b.data

/-- Insert one keyed entry into a key-sorted list. -/
def insertField {β : Type} (e : String × β) : List (String × β) → List (String × β)
  | [] => [e]
  | f :: fs => if strLe e.1 f.1 then e :: f :: fs else f :: insertField e fs

/-- Insertion sort of keyed entries. -/
def sortFields {β : Type} : List (String × β) → List (String × β)
  | [] => []
  | f :: fs => insertField f (sortFields fs)

/-- Canonical form: object properties sorted by key, recursively. -/
def canon : JSValue → JSValue
  | .arr xs => .arr (canonList xs)
  | .obj fs => .obj (sortFields (canonFields fs))
  | v => v
where
  canonList : List JSValue → List JSValue
    | [] => []
    | x :: xs => canon x :: canonList xs
  canonFields : List (String × JSValue) → List (String × JSValue)
    | [] => []
    | (k, v) :: fs => (k, canon v) :: canonFields fs

/-- Deep structural equality of JS values (order-insensitive on mappings,
`NaN` equal to itself, dates by time value). -/
def deepEqual (v w : JSValue) : Prop := canon v = canon w

/-- Values containing no mapping (object) anywhere. -/
def objFree : JSValue → Bool
  | .arr xs => objFreeList xs
  | .obj _ => false
  | _ => true
where
  objFreeList : List JSValue → Bool
    | [] => true
    | x :: xs => objFree x && objFreeList xs


/-! ## Predicate extractor (`expression-parser.ts`) -/

/-- TanStack DB IR expressions: field reference, literal value, function call
(`PropRef` / `Value` / `Func` in `expression-parser.ts`).  The runtime shape
checks `isPropRef` / `isValue` / `isFunc` become constructor matches. -/
inductive BasicExpression where
  | ref : List String → BasicExpression
  | val : JSValue → BasicExpression
  | func : String → List BasicExpression → BasicExpression

/-- `propRefMatchesField`: a direct path `[field]` or an aliased path
`[alias, field]`. -/
def propRefMatchesField (path : List String) (fieldName : String) : Bool :=
  match path with
  | [p] => p = fieldName
  | [_, p] => p = fieldName
  | _ => false

/-- `extractFromEq`: `eq(ref(field), val(x))` or `eq(val(x), ref(field))`. -/
def extractFromEq (args : List BasicExpression) (filterField : String) :
    List JSValue :=
  match args with
  | [.ref path, .val v] => if propRefMatchesField path filterField then [v] else []
  | [.val v, .ref path] => if propRefMatchesField path filterField then [v] else []
  | _ => []

/-- `extractFromIn`: `in(ref(field), val([a, b, c]))`. -/
def extractFromIn (args : List BasicExpression) (filterField : String) :
    List JSValue :=
  match args with
  | [.ref path, .val (.arr items)] =>
      if propRefMatchesField path filterField then items else []
  | _ => []

/-- `walkExpression` from `expression-parser.ts`: `eq` and `in` extract, `and`
and `or` recurse into all arguments, any other function also recurses; a
non-function expression contributes nothing. -/
def walkExpression (expr : BasicExpression) (filterField : String) :
    List JSValue :=
  match expr with
  | .ref _ => []
  | .val _ => []
  | .func name args =>
      if name = "eq" then extractFromEq args filterField
      else if name = "in" then extractFromIn args filterField
      else if name = "and" ∨ name = "or" then walkList args filterField
      else walkList args filterField
where
  walkList : List BasicExpression → String → List JSValue
    | [], _ => []
    | a :: rest, f => walkExpression a f ++ walkList rest f

/-- The `where` clause of `LoadSubsetOptions` (absent or an expression). -/
def LoadSubsetOptions : Type := Option BasicExpression

/-- The dedup loop of `extractFilterValues`: a `seen` set of stable keys and
an output list, first occurrence kept. -/
def dedupLoop (seen : List (List Char)) (acc : List JSValue) :
    List JSValue → List JSValue
  | [] => acc
  | v :: vs =>
      let k := toKey v
      if k ∈ seen then dedupLoop seen acc vs
      else dedupLoop (seen ++ [k]) (acc ++ [v]) vs

/-- `extractFilterValues` from `expression-parser.ts`: walk the `where`
expression, then deduplicate by stable key keeping first occurrences. -/
def extractFilterValues (options : LoadSubsetOptions) (filterField : String) :
    List JSValue :=
  match options with
  | none => []
  | some w => dedupLoop [] [] (walkExpression w filterField)

/-- A filter dimension (`FilterDimension` in `types.ts`). -/
structure FilterDimension where
  filterField : String
  convexArg : String
  single : Bool
  deriving Repr, DecidableEq

/-- JS `Map.prototype.set` / object property assignment on an association
list: replace the first binding in place, else append. -/
def mapSet {κ β : Type} [DecidableEq κ] : List (κ × β) → κ → β → List (κ × β)
  | [], k, v => [(k, v)]
  | (k', v') :: rest, k, v =>
      if k' = k then (k, v) :: rest else (k', v') :: mapSet rest k v

/-- Extracted filter values keyed by `convexArg` (`ExtractedFilters`). -/
def ExtractedFilters : Type := List (String × List JSValue)

/-- `extractMultipleFilterValues` from `expression-parser.ts`: one extraction
per dimension, omitting dimensions with no matches. -/
def extractMultipleFilterValues (options : LoadSubsetOptions)
    (filterDimensions : List FilterDimension) : ExtractedFilters :=
  filterDimensions.foldl
    (fun result dim =>
      let values := extractFilterValues options dim.filterField
      if values.isEmpty then result else mapSet result dim.convexArg values)
    []

/-! ## Sync manager state (`ConvexSyncManager.ts`)

Mutable instance fields become a `SyncState` record; JS `Map`s are
association lists with `mapGet` / `mapSet` / `mapDelete`, JS `Set`s are
duplicate-free lists with `setAdd`, both in insertion order.  The composite
reference key is stored in its parsed form (a sorted record of sorted
serialized values); the source stores its `JSON.stringify`, which the
`cleanupUnreferencedValues` walk parses right back.  Timer and query
plumbing: the debounce timer and the promise it settles are modelled by
`DebounceState`; a backfill query's success is a boolean parameter; what a
query or subscription delivers flows through `handleIncomingData`. -/

/-- A stable key (the characters of `toKey`'s output). -/
abbrev Key := List Char

/-- A parsed composite reference key: dimensions sorted by argument name,
each holding its sorted serialized values. -/
abbrev CompositeKey := List (String × List Key)

/-- JS `Map.prototype.delete`. -/
def mapDelete {κ β : Type} [DecidableEq κ] (m : List (κ × β)) (k : κ) :
    List (κ × β) :=
  m.filter (fun e => decide (e.1 ≠ k))

/-- JS `Set.prototype.add`: append if absent. -/
def setAdd (s : List Key) (k : Key) : List Key :=
  if k ∈ s then s else s ++ [k]

/-- Insert a key into a sorted key list. -/
def insertKeySorted (k : Key) : List Key → List Key
  | [] => [k]
  | x :: xs => if charListLe k x then k :: x :: xs else x :: insertKeySorted k xs

/-- Sort serialized values (the `.sort()` inside `createCompositeKey`). -/
def sortKeys : List Key → List Key
  | [] => []
  | x :: xs => insertKeySorted x (sortKeys xs)

/-- `createCompositeKey`: argument names sorted, each dimension's values
serialized and sorted, for a deterministic reference-counting key. -/
def createCompositeKey (filters : ExtractedFilters) : CompositeKey :=
  (sortFields filters).map (fun e => (e.1, sortKeys (e.2.map toKey)))

/-- The sync manager's constructor configuration that the state machine
reads (`filterDimensions`, `resubscribeThreshold`). -/
structure SMConfig where
  filterDimensions : List FilterDimension
  resubscribeThreshold : Nat
  deriving Repr, DecidableEq

/-- The sync manager's mutable per-instance state. -/
structure SyncState where
  activeDimensions : List (String × List Key)
  refCounts : List (CompositeKey × Nat)
  pendingFilters : ExtractedFilters
  globalCursor : Int
  hasSubscription : Bool
  messagesSinceSubscription : Nat
  hasRequestedGlobal : Bool
  globalRefCount : Nat
  markedReady : Bool

/-- Constructor state: one empty active set per configured dimension,
everything else zeroed. -/
def initialState (cfg : SMConfig) : SyncState where
  activeDimensions :=
    cfg.filterDimensions.foldl (fun m d => mapSet m d.convexArg []) []
  refCounts := []
  pendingFilters := []
  globalCursor := 0
  hasSubscription := false
  messagesSinceSubscription := 0
  hasRequestedGlobal := false
  globalRefCount := 0
  markedReady := false

/-- The configuration-violation error thrown for a `single` dimension: the
dimension's field name and the three counts the message reports. -/
structure SingleError where
  filterField : String
  activeCount : Nat
  pendingCount : Nat
  newCount : Nat
  deriving Repr, DecidableEq

/-- `updateSubscription`: tear down any current subscription, reset the
message counter, and install a new one iff something is active (its query
arguments are rebuilt from the active sets; only the handle's existence is
state). -/
def updateSubscription (cfg : SMConfig) (s : SyncState) : SyncState :=
  let s := { s with hasSubscription := false, messagesSinceSubscription := 0 }
  if cfg.filterDimensions.isEmpty then
    if s.hasRequestedGlobal then { s with hasSubscription := true } else s
  else
    if s.activeDimensions.any (fun e => !e.2.isEmpty) then
      { s with hasSubscription := true }
    else s

/-- The inner loop of `requestFilters` over one dimension's requested
values: skip values already active, skip values already pending (the source
creates the pending entry first, but an entry it creates is empty and is
then pushed to, so creation folds into the push), push the rest and flag
`hasNewValues`. -/
def addPendingValues (activeSet : List Key) (convexArg : String) :
    SyncState × Bool → List JSValue → SyncState × Bool
  | acc, [] => acc
  | (s, hasNew), v :: vs =>
      let serialized := toKey v
      if activeSet.contains serialized then
        addPendingValues activeSet convexArg (s, hasNew) vs
      else
        let pendingList := (mapGet s.pendingFilters convexArg).getD []
        if pendingList.any (fun pv => toKey pv == serialized) then
          addPendingValues activeSet convexArg (s, hasNew) vs
        else
          addPendingValues activeSet convexArg
            ({ s with pendingFilters :=
                mapSet s.pendingFilters convexArg (pendingList ++ [v]) }, true) vs

/-- The per-entry body of `requestFilters`'s loop over
`Object.entries(filters)`: `single` validation first (throwing leaves the
state mutated so far in place), then the pending-buffer inserts. -/
def requestLoop (cfg : SMConfig) (s : SyncState) (hasNew : Bool) :
    List (String × List JSValue) → SyncState × Except SingleError Bool
  | [] => (s, .ok hasNew)
  | (convexArg, values) :: rest =>
      match mapGet s.activeDimensions convexArg with
      | none => requestLoop cfg s hasNew rest
      | some activeSet =>
          let dim := cfg.filterDimensions.find? (fun d => d.convexArg = convexArg)
          let violation : Option SingleError :=
            match dim with
            | some d =>
                if d.single then
                  let existingCount := activeSet.length
                  let pendingList := (mapGet s.pendingFilters convexArg).getD []
                  let newValues := values.filter (fun v =>
                    !(activeSet.contains (toKey v)) &&
                      !(pendingList.any (fun pv => toKey pv == toKey v)))
                  if existingCount + pendingList.length + newValues.length > 1 then
                    some ⟨d.filterField, existingCount, pendingList.length,
                      newValues.length⟩
                  else none
                else none
            | none => none
          match violation with
          | some err => (s, .error err)
          | none =>
              let next := addPendingValues activeSet convexArg (s, hasNew) values
              requestLoop cfg next.1 next.2 rest

/-- `requestFilters` (non-global part is `requestLoop`): bump the composite
key's reference count, then per dimension validate `single` and move fresh
values into the pending buffer.  The returned flag says whether debounced
processing was scheduled (the caller got `scheduleProcessing()`'s pending
promise rather than an already-resolved one); `Except.error` is the
synchronous throw, with all mutations made before the throw kept. -/
def requestFilters (cfg : SMConfig) (s : SyncState) (filters : ExtractedFilters) :
    SyncState × Except SingleError Bool :=
  if cfg.filterDimensions.isEmpty then
    let s := { s with globalRefCount := s.globalRefCount + 1 }
    if !s.hasRequestedGlobal then
      ({ s with hasRequestedGlobal := true }, .ok true)
    else (s, .ok false)
  else
    let ck := createCompositeKey filters
    let s := { s with
      refCounts := mapSet s.refCounts ck ((mapGet s.refCounts ck).getD 0 + 1) }
    requestLoop cfg s false filters

/-- The union of serialized values one composite key contributes per
dimension (the body of `cleanupUnreferencedValues`'s key walk: arguments
without a configured dimension are skipped). -/
def addCompositeRefs (m : List (String × List Key)) (ck : CompositeKey) :
    List (String × List Key) :=
  ck.foldl
    (fun m entry =>
      match mapGet m entry.1 with
      | some refSet => mapSet m entry.1 (entry.2.foldl setAdd refSet)
      | none => m)
    m

/-- All serialized values still referenced per dimension, across every
surviving composite key (`referencedValues` in `cleanupUnreferencedValues`;
the source's defensive `JSON.parse` of a key cannot fail in the model since
keys are stored parsed). -/
def buildReferenced (dims : List FilterDimension)
    (refCounts : List (CompositeKey × Nat)) : List (String × List Key) :=
  refCounts.foldl (fun m e => addCompositeRefs m e.1)
    (dims.foldl (fun m d => mapSet m d.convexArg []) [])

/-- `cleanupUnreferencedValues`: drop from each active set every value no
surviving composite key references; rebuild the subscription iff something
was dropped. -/
def cleanupUnreferencedValues (cfg : SMConfig) (s : SyncState) : SyncState :=
  let referenced := buildReferenced cfg.filterDimensions s.refCounts
  let newActive := s.activeDimensions.map (fun e =>
    (e.1, e.2.filter (fun k => ((mapGet referenced e.1).getD []).contains k)))
  let s' := { s with activeDimensions := newActive }
  if newActive ≠ s.activeDimensions then updateSubscription cfg s' else s'

/-- `releaseFilters`: global-mode counter floor-decrement, or composite-key
decrement (entries at zero removed) followed by the unreferenced-value
sweep. -/
def releaseFilters (cfg : SMConfig) (s : SyncState) (filters : ExtractedFilters) :
    SyncState :=
  if cfg.filterDimensions.isEmpty then
    let g := s.globalRefCount - 1
    let s := { s with globalRefCount := g }
    if g = 0 ∧ s.hasRequestedGlobal then
      updateSubscription cfg { s with hasRequestedGlobal := false }
    else s
  else
    let ck := createCompositeKey filters
    let count : Int := ((mapGet s.refCounts ck).getD 0 : Int) - 1
    let s :=
      if count ≤ 0 then { s with refCounts := mapDelete s.refCounts ck }
      else { s with refCounts := mapSet s.refCounts ck count.toNat }
    cleanupUnreferencedValues cfg s

/-- The pending→active merge inside `processFilterBatch`: every taken
pending value's serialized key is added to its dimension's active set. -/
def mergeActive (active : List (String × List Key))
    (newFilters : ExtractedFilters) : List (String × List Key) :=
  newFilters.foldl
    (fun active e =>
      match mapGet active e.1 with
      | some activeSet =>
          mapSet active e.1 (e.2.foldl (fun st v => setAdd st (toKey v)) activeSet)
      | none => active)
    active

/-- The one-shot ready latch signalled after the first successful pass. -/
def markReadyAfter (s : SyncState) : SyncState :=
  if !s.markedReady then { s with markedReady := true } else s

/-- `processFilterBatch` (the state effects of one debounced processing
pass; `isProcessing` is always false at entry in the sequential model): take
and clear the pending buffer, merge it into the active sets, run the
backfill — whose success is the `backfillOk` parameter and whose delivered
rows flow through `handleIncomingData` — and only on success rebuild the
subscription and latch ready.  A failed backfill throws out of the pass
*after* the merge: merged state is not rolled back. -/
def processFilterBatch (cfg : SMConfig) (s : SyncState) (backfillOk : Bool) :
    SyncState :=
  if s.pendingFilters.isEmpty ∧
      ¬(cfg.filterDimensions.isEmpty ∧ s.hasRequestedGlobal) then s
  else if cfg.filterDimensions.isEmpty then
    if backfillOk then markReadyAfter (updateSubscription cfg s) else s
  else
    let newFilters := s.pendingFilters
    let s := { s with pendingFilters := [] }
    let s := { s with activeDimensions := mergeActive s.activeDimensions newFilters }
    if backfillOk then markReadyAfter (updateSubscription cfg s) else s

/-! ## Reconciliation (`handleIncomingData`) -/

/-- One synced record, as reconciliation sees it: its key, the value of the
configured timestamp field (absent when the record lacks it), and the rest
of its payload. -/
structure ItemRec where
  key : String
  ts : Option Int
  payload : Int
  deriving Repr, DecidableEq

/-- A change message written into the host collection's transaction
(`write({type, value})`; reconciliation never emits deletes). -/
inductive WriteMsg where
  | insert : ItemRec → WriteMsg
  | update : ItemRec → WriteMsg
  deriving Repr, DecidableEq

/-- The loop body of `handleIncomingData` for one incoming item, threading
`(globalCursor, newItemCount, writes)`; `previousCursor` is the cursor
captured before the batch began.  The host collection lookup `col` is the
snapshot the transaction reads from. -/
def processItem (col : String → Option ItemRec) (previousCursor : Int)
    (acc : Int × Nat × List WriteMsg) (item : ItemRec) :
    Int × Nat × List WriteMsg :=
  let cursor := acc.1
  let newItemCount := acc.2.1
  let writes := acc.2.2
  let cursor :=
    match item.ts with
    | some t => if cursor < t then t else cursor
    | none => cursor
  match col item.key with
  | none =>
      let newItemCount :=
        match item.ts with
        | some t => if previousCursor < t then newItemCount + 1 else newItemCount
        | none => newItemCount
      (cursor, newItemCount, writes ++ [.insert item])
  | some existing =>
      match item.ts, existing.ts with
      | some incomingTs, some existingTs =>
          if existingTs < incomingTs then
            (cursor,
              (if previousCursor < incomingTs then newItemCount + 1
               else newItemCount),
              writes ++ [.update item])
          else (cursor, newItemCount, writes)
      | some _, none => (cursor, newItemCount, writes ++ [.update item])
      | none, _ => (cursor, newItemCount, writes)

/-- `handleIncomingData` (with callbacks installed): run the LWW loop over
the batch inside one `begin`/`commit`, add the batch's genuinely-new count
to the message counter, and force a resubscription once a positive threshold
is reached while a subscription exists.  Returns the messages written to the
transaction. -/
def handleIncomingData (cfg : SMConfig) (col : String → Option ItemRec)
    (s : SyncState) (items : List ItemRec) : SyncState × List WriteMsg :=
  if items.isEmpty then (s, [])
  else
    let previousCursor := s.globalCursor
    let folded := items.foldl (processItem col previousCursor)
      (s.globalCursor, 0, [])
    let s := { s with
      globalCursor := folded.1
      messagesSinceSubscription := s.messagesSinceSubscription + folded.2.1 }
    let s :=
      if 0 < cfg.resubscribeThreshold ∧
          cfg.resubscribeThreshold ≤ s.messagesSinceSubscription ∧
          s.hasSubscription then
        updateSubscription cfg s
      else s
    (s, folded.2.2)

/-! ## The collection adapter's `loadSubset` (`index.ts`) and the debounce
promise (`scheduleProcessing`) -/

/-- What a `loadSubset` call hands back to TanStack DB: an already-resolved
promise, the shared pending promise of a newly scheduled debounced batch, or
a synchronous throw. -/
inductive LoadResult where
  | resolved : LoadResult
  | scheduled : LoadResult
  | threw : SingleError → LoadResult
  deriving Repr, DecidableEq

/-- `loadSubset` from `index.ts`: in global mode always request; otherwise
extract per-dimension values from the `where` clause and, when nothing was
extracted, resolve immediately without touching the sync manager. -/
def loadSubset (cfg : SMConfig) (s : SyncState) (options : LoadSubsetOptions) :
    SyncState × LoadResult :=
  if cfg.filterDimensions.isEmpty then
    match requestFilters cfg s [] with
    | (s', .ok true) => (s', .scheduled)
    | (s', .ok false) => (s', .resolved)
    | (s', .error e) => (s', .threw e)
  else
    let extracted := extractMultipleFilterValues options cfg.filterDimensions
    if extracted.isEmpty then (s, .resolved)
    else
      match requestFilters cfg s extracted with
      | (s', .ok true) => (s', .scheduled)
      | (s', .ok false) => (s', .resolved)
      | (s', .error e) => (s', .threw e)

/-- The debounce timer's promise bookkeeping, modelled from
`scheduleProcessing`: every call constructs a *new* promise whose `resolve`
and `reject` are captured only by the timeout callback it arms, after
`clearTimeout`-ing the previous timer.  Promises are numbered in creation
order; `armedPromise` is the promise the currently armed timer would settle;
`settled` lists promises whose resolve or reject has run (the batch
completing settles the armed promise either way). -/
structure DebounceState where
  nextPromiseId : Nat
  armedPromise : Option Nat
  settled : List Nat
  deriving Repr, DecidableEq

/-- `scheduleProcessing`: clear any armed timer (orphaning the promise it
would have settled) and arm a fresh timer for a fresh promise, which is
returned to the caller. -/
def scheduleProcessing (d : DebounceState) : DebounceState × Nat :=
  (⟨d.nextPromiseId + 1, some d.nextPromiseId, d.settled⟩, d.nextPromiseId)

/-- The armed debounce timer firing: the processing pass runs and the
promise the timer captured settles (resolves or rejects). -/
def debounceFire (d : DebounceState) : DebounceState :=
  match d.armedPromise with
  | some p => ⟨d.nextPromiseId, none, d.settled ++ [p]⟩
  | none => d

/-- Any interleaving of further `scheduleProcessing` calls and timer
firings, for stating what can ever become settled. -/
def debounceRun (d : DebounceState) : List Bool → DebounceState
  | [] => d
  | true :: ops => debounceRun (scheduleProcessing d).1 ops
  | false :: ops => debounceRun (debounceFire d) ops
/-- The per-record last-write-wins rule as the specification words it: absent
key ⇒ insert; both timestamps present ⇒ update exactly when the incoming one
is strictly greater, else discard; existing without a timestamp but incoming
with one ⇒ unconditional update; incoming without a timestamp ⇒ discard. -/
def lwwSpecDecision (col : String → Option ItemRec) (item : ItemRec) :
    Option WriteMsg :=
  match col item.key with
  | none => some (.insert item)
  | some existing =>
      match item.ts with
      | none => none
      | some incomingTs =>
          match existing.ts with
          | none => some (.update item)
          | some existingTs =>
              if existingTs < incomingTs then some (.update item) else none

/-- A sequence of deliveries (each with the collection snapshot its
transaction reads), as claim C5 quantifies over. -/
def deliverSequence (cfg : SMConfig) (s : SyncState) :
    List ((String → Option ItemRec) × List ItemRec) → SyncState
  | [] => s
  | d :: ds => deliverSequence cfg (handleIncomingData cfg d.1 s d.2).1 ds

/-! ## Specification-side definitions and concrete fixtures

`collectSpecValues` / `extractValuesSpec` restate claim C9's wording of the
extractor (for the refinement proof); `lwwSpecDecision` above plays the same
role for C1.  `reachableValue` is the spec's reachability notion for
reference counting.  The named fixtures below are the concrete inputs the
witness theorems evaluate the code at. -/

/-- Specification-side extractor, from C9's words: values come only from
equality nodes (either operand order; one side a reference to the target
field, the other side a literal) and set-membership nodes (field reference
on the left, literal array on the right); conjunction, disjunction and any
other function node are recursed into uniformly; non-function nodes
contribute nothing. -/
def collectSpecValues (filterField : String) : BasicExpression → List JSValue
  | .func name args =>
      if name = "eq" then
        match args with
        | [.ref p, .val v] =>
            if propRefMatchesField p filterField then [v] else []
        | [.val v, .ref p] =>
            if propRefMatchesField p filterField then [v] else []
        | _ => []
      else if name = "in" then
        match args with
        | [.ref p, .val (.arr items)] =>
            if propRefMatchesField p filterField then items else []
        | _ => []
      else collectSpecList filterField args
  | _ => []
where
  collectSpecList : String → List BasicExpression → List JSValue
    | _, [] => []
    | f, e :: rest => collectSpecValues f e ++ collectSpecList f rest

/-- First-seen deduplication by stable key, as the claim words it. -/
def firstSeenDedup : List JSValue → List JSValue
  | [] => []
  | v :: vs =>
      v :: firstSeenDedup (vs.filter (fun w => !(toKey w == toKey v)))
termination_by l => l.length
decreasing_by
  simp only [List.length_cons]
  exact Nat.lt_succ_of_le (List.length_filter_le _ _)

/-- Specification-side `extractValues`: absence of a predicate tree yields
the empty list; otherwise collect and deduplicate first-seen. -/
def extractValuesSpec (options : LoadSubsetOptions) (filterField : String) :
    List JSValue :=
  match options with
  | none => []
  | some e => firstSeenDedup (collectSpecValues filterField e)

/-- A serialized value is reachable for a dimension when some surviving
composite-key entry with positive reference count lists it under that
dimension's argument name. -/
def reachableValue (refCounts : List (CompositeKey × Nat)) (arg : String)
    (k : Key) : Prop :=
  ∃ e ∈ refCounts, 0 < e.2 ∧ ∃ vs, (arg, vs) ∈ e.1 ∧ k ∈ vs

/-- Fixture: one dimension flagged `single`. -/
def cfgSingle : SMConfig := ⟨[⟨"f", "a", true⟩], 10⟩

/-- Fixture: the request of two distinct values for the `single` dimension. -/
def twoValueRequest : ExtractedFilters := [("a", [.str "v1", .str "v2"])]

/-- Fixture: one multi-valued channel dimension. -/
def cfgChannels : SMConfig := ⟨[⟨"channelId", "channelIds", false⟩], 10⟩

/-- Fixture: the combination {c1, c2}. -/
def comboC12 : ExtractedFilters := [("channelIds", [.str "c1", .str "c2"])]

/-- Fixture: the combination {c1, c2, c3}. -/
def comboC123 : ExtractedFilters :=
  [("channelIds", [.str "c1", .str "c2", .str "c3"])]

/-- Fixture: the state after requesting and backfilling {c1, c2} and then
{c1, c2, c3} (both combinations still referenced). -/
def stateBothCombos : SyncState :=
  processFilterBatch cfgChannels
    (requestFilters cfgChannels
      (processFilterBatch cfgChannels
        (requestFilters cfgChannels (initialState cfgChannels) comboC12).1 true)
      comboC123).1 true

/-- Fixture: representative inputs of every kind C8 names — the special
primitives, a date, a nested array, a nested mapping. -/
def representativeValues : List JSValue :=
  [.undef, .nan, .posInf, .negInf, .date "2020-01-02T03:04:05.000Z",
   .arr [.num 1, .arr [.str "x", .undef], .nan, .num (-42)],
   .obj [("a", .num 1), ("b", .arr [.str "x", .null, .bool true]),
         ("c", .obj [("d", .posInf), ("e", .date "1999-12-31T23:59:59.000Z")])]]

/-- The reference-count decrement step of `releaseFilters` (the `count`
computation: entries at or below zero are removed, not retained). -/
def decrementRefCounts (R : List (CompositeKey × Nat)) (ck : CompositeKey) :
    List (CompositeKey × Nat) :=
  let count : Int := ((mapGet R ck).getD 0 : Int) - 1
  if count ≤ 0 then mapDelete R ck else mapSet R ck count.toNat

/-! ## Basic lemmas about the JS map/set operations -/

mutual

theorem canon_of_objFree : ∀ v : JSValue, objFree v = true → canon v = v
  | .undef, _ => rfl
  | .null, _ => rfl
  | .bool _, _ => rfl
  | .num _, _ => rfl
  | .nan, _ => rfl
  | .posInf, _ => rfl
  | .negInf, _ => rfl
  | .str _, _ => rfl
  | .date _, _ => rfl
  | .arr xs, h =>
      congrArg JSValue.arr (canonList_of_objFree xs h)
  | .obj _, h => by simp [objFree] at h

theorem canonList_of_objFree :
    ∀ xs : List JSValue, objFree.objFreeList xs = true → canon.canonList xs = xs
  | [], _ => rfl
  | x :: xs, h => by
      have h' : objFree x = true ∧ objFree.objFreeList xs = true := by
        simpa [objFree.objFreeList, Bool.and_eq_true] using h
      calc canon.canonList (x :: xs) = canon x :: canon.canonList xs := rfl
        _ = x :: xs := by
            rw [canon_of_objFree x h'.1, canonList_of_objFree xs h'.2]

end

theorem mapGet_mapSet_self {κ β : Type} [DecidableEq κ] (m : List (κ × β))
    (k : κ) (v : β) : mapGet (mapSet m k v) k = some v := by
  induction m with
  | nil => simp [mapGet, mapSet]
  | cons e rest ih =>
      obtain ⟨k₀, v₀⟩ := e
      by_cases h : k₀ = k <;> simp [mapGet, mapSet, h, ih]

theorem mapGet_mapSet_ne {κ β : Type} [DecidableEq κ] (m : List (κ × β))
    {k k' : κ} (v : β) (h : k' ≠ k) :
    mapGet (mapSet m k v) k' = mapGet m k' := by
  have h' : ¬ k = k' := fun hh => h hh.symm
  induction m with
  | nil => simp [mapSet, mapGet, h']
  | cons e rest ih =>
      obtain ⟨k₀, v₀⟩ := e
      simp only [mapSet]
      split_ifs with h₀
      · simp only [mapGet, h']
        subst h₀
        simp [h']
      · simp only [mapGet]
        split_ifs with h₁
        · rfl
        · exact ih

theorem mapSet_map_fst_of_get {κ β : Type} [DecidableEq κ] (m : List (κ × β))
    {k : κ} (v : β) (h : (mapGet m k).isSome) :
    (mapSet m k v).map Prod.fst = m.map Prod.fst := by
  induction m with
  | nil => simp [mapGet] at h
  | cons e rest ih =>
      obtain ⟨k₀, v₀⟩ := e
      by_cases h₀ : k₀ = k
      · simp [mapSet, h₀]
      · simp only [mapGet, if_neg h₀] at h
        simp [mapSet, if_neg h₀, ih h]

theorem mapSet_of_get_none {κ β : Type} [DecidableEq κ] (m : List (κ × β))
    {k : κ} (v : β) (h : mapGet m k = none) : mapSet m k v = m ++ [(k, v)] := by
  induction m with
  | nil => simp [mapSet]
  | cons e rest ih =>
      obtain ⟨k₀, v₀⟩ := e
      by_cases h₀ : k₀ = k
      · simp [mapGet, h₀] at h
      · simp only [mapGet, if_neg h₀] at h
        simp [mapSet, if_neg h₀, ih h]

theorem mapSet_self {κ β : Type} [DecidableEq κ] (m : List (κ × β)) {k : κ}
    {v : β} (h : mapGet m k = some v) : mapSet m k v = m := by
  induction m with
  | nil => simp [mapGet] at h
  | cons e rest ih =>
      obtain ⟨k₀, v₀⟩ := e
      by_cases h₀ : k₀ = k
      · subst h₀
        have h' : v₀ = v := by simpa [mapGet] using h
        simp [mapSet, h']
      · simp only [mapGet, if_neg h₀] at h
        simp [mapSet, if_neg h₀, ih h]

theorem mapSet_mapSet {κ β : Type} [DecidableEq κ] (m : List (κ × β)) (k : κ)
    (v w : β) : mapSet (mapSet m k v) k w = mapSet m k w := by
  induction m with
  | nil => simp [mapSet]
  | cons e rest ih =>
      obtain ⟨k₀, v₀⟩ := e
      by_cases h₀ : k₀ = k <;> simp [mapSet, h₀, ih]

theorem mapGet_eq_none_iff {κ β : Type} [DecidableEq κ] (m : List (κ × β))
    (k : κ) : mapGet m k = none ↔ k ∉ m.map Prod.fst := by
  induction m with
  | nil => simp [mapGet]
  | cons e rest ih =>
      obtain ⟨k₀, v₀⟩ := e
      by_cases h₀ : k₀ = k
      · subst h₀
        simp [mapGet]
      · have h₁ : ¬ k = k₀ := fun hh => h₀ hh.symm
        simp [mapGet, h₀, ih, h₁]

theorem mem_of_mapGet_eq_some {κ β : Type} [DecidableEq κ] {m : List (κ × β)}
    {k : κ} {v : β} (h : mapGet m k = some v) : (k, v) ∈ m := by
  induction m with
  | nil => simp [mapGet] at h
  | cons e rest ih =>
      obtain ⟨k₀, v₀⟩ := e
      by_cases h₀ : k₀ = k
      · subst h₀
        have h' : v₀ = v := by simpa [mapGet] using h
        simp [h']
      · simp only [mapGet, if_neg h₀] at h
        simp [ih h]

theorem mapDelete_of_get_none {κ β : Type} [DecidableEq κ] (m : List (κ × β))
    {k : κ} (h : mapGet m k = none) : mapDelete m k = m := by
  induction m with
  | nil => rfl
  | cons e rest ih =>
      obtain ⟨k₀, v₀⟩ := e
      by_cases h₀ : k₀ = k
      · simp [mapGet, h₀] at h
      · simp only [mapGet, if_neg h₀] at h
        calc mapDelete ((k₀, v₀) :: rest) k
            = (k₀, v₀) :: mapDelete rest k := by
              simp [mapDelete, List.filter_cons, h₀]
          _ = (k₀, v₀) :: rest := by rw [ih h]

theorem mapDelete_append_single {κ β : Type} [DecidableEq κ] (m : List (κ × β))
    (k : κ) (v : β) : mapDelete (m ++ [(k, v)]) k = mapDelete m k := by
  simp [mapDelete, List.filter_append]

theorem nodup_fst_mapSet {κ β : Type} [DecidableEq κ] (m : List (κ × β))
    (k : κ) (v : β) (h : (m.map Prod.fst).Nodup) :
    ((mapSet m k v).map Prod.fst).Nodup := by
  by_cases hk : mapGet m k = none
  · have hnot : k ∉ m.map Prod.fst := (mapGet_eq_none_iff m k).1 hk
    rw [mapSet_of_get_none m v hk, List.map_append]
    simp only [List.map_cons, List.map_nil]
    refine List.Nodup.append h (List.nodup_singleton k) ?_
    intro a ha hb
    simp only [List.mem_singleton] at hb
    subst hb
    exact hnot ha
  · have hs : (mapGet m k).isSome := Option.ne_none_iff_isSome.1 hk
    rw [mapSet_map_fst_of_get m v hs]
    exact h

theorem mem_setAdd {s : List Key} {k a : Key} :
    a ∈ setAdd s k ↔ a ∈ s ∨ a = k := by
  by_cases h : k ∈ s
  · simp only [setAdd, if_pos h]
    constructor
    · exact Or.inl
    · rintro (h₁ | rfl)
      · exact h₁
      · exact h
  · simp [setAdd, if_neg h]

theorem mem_foldl_setAdd (vs : List Key) (st : List Key) (a : Key) :
    a ∈ vs.foldl setAdd st ↔ a ∈ st ∨ a ∈ vs := by
  induction vs generalizing st with
  | nil => simp
  | cons v rest ih =>
      simp only [List.foldl_cons, ih, mem_setAdd, List.mem_cons]
      tauto

theorem mem_foldl_setAdd_toKey (vs : List JSValue) (st : List Key) (a : Key) :
    a ∈ vs.foldl (fun st v => setAdd st (toKey v)) st ↔
      a ∈ st ∨ ∃ v ∈ vs, toKey v = a := by
  induction vs generalizing st with
  | nil => simp
  | cons v rest ih =>
      simp only [List.foldl_cons, ih, mem_setAdd, List.mem_cons]
      constructor
      · rintro (⟨h | h⟩ | ⟨w, hw, rfl⟩)
        · exact Or.inl h
        · exact Or.inr ⟨v, Or.inl rfl, h.symm⟩
        · exact Or.inr ⟨w, Or.inr hw, rfl⟩
      · rintro (h | ⟨w, (rfl | hw), rfl⟩)
        · exact Or.inl (Or.inl h)
        · exact Or.inl (Or.inr rfl)
        · exact Or.inr ⟨w, hw, rfl⟩

theorem updateSubscription_activeDimensions (cfg : SMConfig) (s : SyncState) :
    (updateSubscription cfg s).activeDimensions = s.activeDimensions := by
  simp only [updateSubscription]
  split_ifs <;> rfl

theorem updateSubscription_refCounts (cfg : SMConfig) (s : SyncState) :
    (updateSubscription cfg s).refCounts = s.refCounts := by
  simp only [updateSubscription]
  split_ifs <;> rfl

theorem updateSubscription_pendingFilters (cfg : SMConfig) (s : SyncState) :
    (updateSubscription cfg s).pendingFilters = s.pendingFilters := by
  simp only [updateSubscription]
  split_ifs <;> rfl

theorem updateSubscription_globalCursor (cfg : SMConfig) (s : SyncState) :
    (updateSubscription cfg s).globalCursor = s.globalCursor := by
  simp only [updateSubscription]
  split_ifs <;> rfl

theorem markReadyAfter_activeDimensions (s : SyncState) :
    (markReadyAfter s).activeDimensions = s.activeDimensions := by
  simp only [markReadyAfter]
  split_ifs <;> rfl

theorem markReadyAfter_refCounts (s : SyncState) :
    (markReadyAfter s).refCounts = s.refCounts := by
  simp only [markReadyAfter]
  split_ifs <;> rfl

theorem markReadyAfter_pendingFilters (s : SyncState) :
    (markReadyAfter s).pendingFilters = s.pendingFilters := by
  simp only [markReadyAfter]
  split_ifs <;> rfl

/-! ## Reconciliation lemmas (claims C1 and C5) -/

theorem processItem_writes (col : String → Option ItemRec)
    (previousCursor c : Int) (n : Nat) (ws : List WriteMsg) (item : ItemRec) :
    (processItem col previousCursor (c, n, ws) item).2.2 =
      ws ++ (lwwSpecDecision col item).toList := by
  simp only [processItem, lwwSpecDecision]
  cases hcol : col item.key with
  | none => cases hts : item.ts <;> simp [hts]
  | some existing =>
      cases hts : item.ts with
      | none => simp [hts]
      | some its =>
          cases hex : existing.ts with
          | none => simp [hts, hex]
          | some ets => by_cases h : ets < its <;> simp [hts, hex, h]

theorem processItem_cursor_le (col : String → Option ItemRec)
    (previousCursor c : Int) (n : Nat) (ws : List WriteMsg) (item : ItemRec) :
    c ≤ (processItem col previousCursor (c, n, ws) item).1 := by
  simp only [processItem]
  cases hcol : col item.key with
  | none =>
      cases hts : item.ts with
      | none => simp
      | some t =>
          simp only [hts]
          split_ifs <;> (try simp) <;> omega
  | some existing =>
      cases hts : item.ts with
      | none => cases hex : existing.ts <;> simp [hex]
      | some its =>
          cases hex : existing.ts with
          | none =>
              simp only [hts, hex]
              split_ifs <;> (try simp) <;> omega
          | some ets =>
              simp only [hts, hex]
              split_ifs <;> (try simp) <;> omega

theorem foldl_processItem_writes (col : String → Option ItemRec) (prev : Int) :
    ∀ (items : List ItemRec) (c : Int) (n : Nat) (ws : List WriteMsg),
    (items.foldl (processItem col prev) (c, n, ws)).2.2 =
      ws ++ items.filterMap (lwwSpecDecision col) := by
  intro items
  induction items with
  | nil => intro c n ws; simp
  | cons item rest ih =>
      intro c n ws
      have h1 : List.foldl (processItem col prev) (c, n, ws) (item :: rest) =
          List.foldl (processItem col prev)
            ((processItem col prev (c, n, ws) item).1,
             (processItem col prev (c, n, ws) item).2.1,
             (processItem col prev (c, n, ws) item).2.2) rest := rfl
      rw [h1, ih, processItem_writes]
      cases h : lwwSpecDecision col item <;> simp [List.filterMap_cons, h]

theorem foldl_processItem_cursor_le (col : String → Option ItemRec) (prev : Int) :
    ∀ (items : List ItemRec) (c : Int) (n : Nat) (ws : List WriteMsg),
    c ≤ (items.foldl (processItem col prev) (c, n, ws)).1 := by
  intro items
  induction items with
  | nil => intro c n ws; simp
  | cons item rest ih =>
      intro c n ws
      have h1 : List.foldl (processItem col prev) (c, n, ws) (item :: rest) =
          List.foldl (processItem col prev)
            ((processItem col prev (c, n, ws) item).1,
             (processItem col prev (c, n, ws) item).2.1,
             (processItem col prev (c, n, ws) item).2.2) rest := rfl
      rw [h1]
      exact le_trans (processItem_cursor_le col prev c n ws item) (ih _ _ _)

theorem handleIncomingData_cursor_le (cfg : SMConfig)
    (col : String → Option ItemRec) (s : SyncState) (items : List ItemRec) :
    s.globalCursor ≤ (handleIncomingData cfg col s items).1.globalCursor := by
  by_cases hemp : items.isEmpty
  · simp [handleIncomingData, hemp]
  · simp only [handleIncomingData, hemp, Bool.false_eq_true, if_false]
    split_ifs with h
    · rw [updateSubscription_globalCursor]
      exact foldl_processItem_cursor_le col s.globalCursor items s.globalCursor 0 []
    · exact foldl_processItem_cursor_le col s.globalCursor items s.globalCursor 0 []

/-- C1: in every reconciliation batch, a record whose key is absent from the
host collection is emitted as an insert; a present record with both
timestamps is emitted as an update exactly when the incoming timestamp is
strictly greater and silently discarded otherwise; a present record whose
existing version lacks a timestamp but which carries one is updated
unconditionally; and a present record without a timestamp is discarded —
i.e. the transaction's writes are exactly the per-record LWW rule mapped
over the batch. -/
theorem handleIncomingData_lww_writes (cfg : SMConfig)
    (col : String → Option ItemRec) (s : SyncState) (items : List ItemRec) :
    (handleIncomingData cfg col s items).2 =
      items.filterMap (lwwSpecDecision col) := by
  by_cases hemp : items.isEmpty
  · have : items = [] := by
      cases items with
      | nil => rfl
      | cons a l => simp [List.isEmpty] at hemp
    subst this
    simp [handleIncomingData]
  · simp only [handleIncomingData, hemp, Bool.false_eq_true, if_false]
    exact foldl_processItem_writes col s.globalCursor items s.globalCursor 0 []

/-- C5: the global cursor never decreases — not at a single record step, not
across one backfill or subscription delivery, and not across any sequence of
deliveries, regardless of out-of-order timestamps. -/
theorem globalCursor_monotone (cfg : SMConfig) :
    (∀ (col : String → Option ItemRec) (prev c : Int) (n : Nat)
        (ws : List WriteMsg) (item : ItemRec),
        c ≤ (processItem col prev (c, n, ws) item).1) ∧
    (∀ (col : String → Option ItemRec) (s : SyncState) (items : List ItemRec),
        s.globalCursor ≤ (handleIncomingData cfg col s items).1.globalCursor) ∧
    (∀ (s : SyncState) (ds : List ((String → Option ItemRec) × List ItemRec)),
        s.globalCursor ≤ (deliverSequence cfg s ds).globalCursor) := by
  refine ⟨processItem_cursor_le, handleIncomingData_cursor_le cfg, ?_⟩
  intro s ds
  induction ds generalizing s with
  | nil => simp [deliverSequence]
  | cons d rest ih =>
      exact le_trans (handleIncomingData_cursor_le cfg d.1 s d.2)
        (ih ((handleIncomingData cfg d.1 s d.2).1))

/-- C2 (refuted; code bug): a `single`-dimension violation does throw an
error carrying the offending dimension's field name and the three counts,
but the call has already incremented the composite key's reference count
before validating, so state *is* mutated on the error path: from the fresh
manager, requesting two values at once leaves a reference-count entry of 1
behind while the error propagates (and no matching release will ever come). -/
theorem requestFilters_single_violation_mutates :
    (requestFilters cfgSingle (initialState cfgSingle) twoValueRequest).2 =
      .error ⟨"f", 0, 0, 2⟩ ∧
    (requestFilters cfgSingle (initialState cfgSingle) twoValueRequest).1.refCounts =
      [([("a", [toKey (.str "v1"), toKey (.str "v2")])], 1)] ∧
    (initialState cfgSingle).refCounts = [] :=
  ⟨rfl, rfl, rfl⟩

theorem debounceRun_not_mem_settled (p : Nat) :
    ∀ (ops : List Bool) (d : DebounceState),
      p ∉ d.settled → d.armedPromise ≠ some p → p < d.nextPromiseId →
      p ∉ (debounceRun d ops).settled := by
  intro ops
  induction ops with
  | nil =>
      intro d h1 _ _
      simpa [debounceRun] using h1
  | cons op rest ih =>
      intro d h1 h2 h3
      cases op with
      | true =>
          simp only [debounceRun]
          refine ih _ h1 ?_ ?_
          · intro hc
            simp only [scheduleProcessing] at hc
            have : d.nextPromiseId = p := by simpa using hc
            omega
          · simp only [scheduleProcessing]
            omega
      | false =>
          simp only [debounceRun]
          cases harm : d.armedPromise with
          | none =>
              have hd : debounceFire d = d := by simp [debounceFire, harm]
              rw [hd]
              exact ih d h1 h2 h3
          | some q =>
              have hq : q ≠ p := fun hqq => h2 (by rw [harm, hqq])
              refine ih _ ?_ ?_ ?_
              · simp only [debounceFire, harm, List.mem_append,
                  List.mem_singleton]
                rintro (hin | hin)
                · exact h1 hin
                · exact hq hin.symm
              · simp [debounceFire, harm]
              · simpa [debounceFire, harm] using h3

/-- C7 (refuted; code bug): coalesced callers do *not* share one pending
future.  Each `scheduleProcessing` call constructs a fresh promise and
`clearTimeout`s the previous timer — the only holder of the previous
promise's `resolve`/`reject` — so after two coalesced requests the first
caller's promise (id 0) can never settle under any further sequence of
schedules and timer firings. -/
theorem scheduleProcessing_orphans_first_promise :
    (scheduleProcessing ⟨0, none, []⟩).2 = 0 ∧
    (scheduleProcessing (scheduleProcessing ⟨0, none, []⟩).1).2 = 1 ∧
    ∀ ops : List Bool,
      0 ∉ (debounceRun
            (scheduleProcessing (scheduleProcessing ⟨0, none, []⟩).1).1
            ops).settled := by
  refine ⟨rfl, rfl, ?_⟩
  intro ops
  exact debounceRun_not_mem_settled 0 ops _ (by decide) (by decide) (by decide)

/-- C10: with at least one dimension configured, a `loadSubset` whose
predicate yields no extractable values for any dimension returns the
already-resolved result and leaves the sync manager's state untouched — no
reference count, no pending buffer entry, no scheduled processing. -/
theorem loadSubset_no_extract_noop (cfg : SMConfig) (s : SyncState)
    (options : LoadSubsetOptions)
    (hdims : cfg.filterDimensions ≠ [])
    (hext : extractMultipleFilterValues options cfg.filterDimensions = []) :
    loadSubset cfg s options = (s, .resolved) := by
  rcases hcfg : cfg.filterDimensions with _ | ⟨d, ds⟩
  · exact absurd hcfg hdims
  · rw [hcfg] at hext
    simp [loadSubset, hcfg, hext]

/-- Witness for C10: a query filtering on a different field (`clientId`)
extracts nothing for the `pageId` dimension, and `loadSubset` is a no-op. -/
theorem loadSubset_no_extract_noop_witness :
    (⟨[⟨"pageId", "pageIds", false⟩], 10⟩ : SMConfig).filterDimensions ≠ [] ∧
    extractMultipleFilterValues
      (some (.func "eq" [.ref ["clientId"], .val (.str "x")]))
      (⟨[⟨"pageId", "pageIds", false⟩], 10⟩ : SMConfig).filterDimensions = [] ∧
    loadSubset ⟨[⟨"pageId", "pageIds", false⟩], 10⟩
      (initialState ⟨[⟨"pageId", "pageIds", false⟩], 10⟩)
      (some (.func "eq" [.ref ["clientId"], .val (.str "x")])) =
      (initialState ⟨[⟨"pageId", "pageIds", false⟩], 10⟩, .resolved) := by
  refine ⟨by simp, rfl, ?_⟩
  exact loadSubset_no_extract_noop _ _ _ (by simp) rfl

mutual

theorem walkExpression_eq_spec : ∀ (e : BasicExpression) (f : String),
    walkExpression e f = collectSpecValues f e
  | .ref _, _ => rfl
  | .val _, _ => rfl
  | .func name args, f => by
      simp only [walkExpression, collectSpecValues]
      by_cases h1 : name = "eq"
      · simp only [h1, if_pos rfl, extractFromEq]
        rcases args with _ | ⟨a, _ | ⟨b, _ | ⟨c, rest⟩⟩⟩
        · rfl
        · cases a <;> rfl
        · cases a <;> cases b <;> rfl
        · cases a <;> cases b <;> rfl
      · by_cases h2 : name = "in"
        · simp only [h1, h2, if_neg, if_pos rfl, extractFromIn]
          rcases args with _ | ⟨a, _ | ⟨b, _ | ⟨c, rest⟩⟩⟩
          · simp [h1]
          · cases a <;> simp [h1]
          · cases a <;> cases b <;> simp [h1]
          · cases a <;> cases b <;> simp [h1]
        · by_cases h3 : name = "and" ∨ name = "or" <;>
            simp [h1, h2, h3, walkList_eq_specList args f]

theorem walkList_eq_specList : ∀ (args : List BasicExpression) (f : String),
    walkExpression.walkList args f = collectSpecValues.collectSpecList f args
  | [], _ => rfl
  | e :: rest, f => by
      simp only [walkExpression.walkList, collectSpecValues.collectSpecList]
      rw [walkExpression_eq_spec e f, walkList_eq_specList rest f]

end

theorem dedupLoop_eq_firstSeenDedup :
    ∀ (l : List JSValue) (seen : List Key) (acc : List JSValue),
      dedupLoop seen acc l =
        acc ++ firstSeenDedup (l.filter (fun v => !(decide (toKey v ∈ seen)))) := by
  intro l
  induction l with
  | nil => intro seen acc; simp [dedupLoop, firstSeenDedup]
  | cons v rest ih =>
      intro seen acc
      by_cases hmem : toKey v ∈ seen
      · have hfilter : List.filter (fun w => !(decide (toKey w ∈ seen))) (v :: rest)
            = List.filter (fun w => !(decide (toKey w ∈ seen))) rest := by
          simp [List.filter_cons, hmem]
        rw [hfilter]
        simp only [dedupLoop]
        rw [if_pos hmem]
        exact ih seen acc
      · have hfilter : List.filter (fun w => !(decide (toKey w ∈ seen))) (v :: rest)
            = v :: List.filter (fun w => !(decide (toKey w ∈ seen))) rest := by
          simp [List.filter_cons, hmem]
        rw [hfilter]
        simp only [dedupLoop]
        rw [if_neg hmem, ih (seen ++ [toKey v]) (acc ++ [v])]
        simp only [firstSeenDedup, List.filter_filter, List.append_assoc,
          List.singleton_append]
        have hpt : List.filter
              (fun w => !(decide (toKey w ∈ seen ++ [toKey v]))) rest =
            List.filter
              (fun a => !(toKey a == toKey v) && !(decide (toKey a ∈ seen)))
              rest := by
          apply List.filter_congr
          intro w _
          by_cases h1 : toKey w ∈ seen
          · simp [h1]
          · by_cases h2 : toKey w = toKey v <;> simp [h1, h2]
        rw [hpt]

/-- C9: the extractor equals its specification: literal values are taken
only from equality nodes (either operand order; one side a reference to the
target field, the other a literal) and set-membership nodes (reference left,
literal array right); conjunction, disjunction and any other function node
recurse uniformly; the result is deduplicated by stable key in first-seen
order; and an absent predicate tree yields the empty list, not an error. -/
theorem extractFilterValues_matches_spec (options : LoadSubsetOptions)
    (filterField : String) :
    extractFilterValues options filterField =
      extractValuesSpec options filterField := by
  cases options with
  | none => rfl
  | some e =>
      show dedupLoop [] [] (walkExpression e filterField) =
        firstSeenDedup (collectSpecValues filterField e)
      rw [walkExpression_eq_spec e filterField,
        dedupLoop_eq_firstSeenDedup (collectSpecValues filterField e) [] []]
      simp

/-- Counterexample to C8: two mappings that are equal under deep structural
equality (property order does not participate in JS deep equality) receive
different stable keys, because `serializeValue` preserves property insertion
order and does not sort keys. -/
theorem toStableKey_key_order_counterexample :
    deepEqual (JSValue.obj [("a", .num 1), ("b", .num 2)])
      (JSValue.obj [("b", .num 2), ("a", .num 1)]) ∧
    toKey (JSValue.obj [("a", .num 1), ("b", .num 2)]) ≠
      toKey (JSValue.obj [("b", .num 2), ("a", .num 1)]) :=
  ⟨rfl, by decide⟩

set_option maxRecDepth 8192 in
/-- C8 as amended: (i) equal keys are guaranteed for deep-equal inputs free
of mappings (for mappings the guarantee additionally requires identical key
insertion order, which the counterexample shows is necessary); (ii) for
every representative input of the kinds named — `undefined`, `NaN`,
`+Infinity`, `-Infinity`, a date value, nested arrays and nested mappings —
`fromStableKey (toStableKey v)` reproduces a value deep-equal to `v`. -/
theorem stableKey_amended_guarantees :
    (∀ v w : JSValue, objFree v = true → objFree w = true → deepEqual v w →
      toKey v = toKey w) ∧
    (∀ v ∈ representativeValues,
      ∃ w, fromKey (toKey v) = some w ∧ deepEqual w v) := by
  constructor
  · intro v w hv hw hd
    have h : v = w := by
      have := hd
      unfold deepEqual at this
      rw [canon_of_objFree v hv, canon_of_objFree w hw] at this
      exact this
    rw [h]
  · intro v hv
    simp only [representativeValues, List.mem_cons, List.not_mem_nil,
      or_false] at hv
    rcases hv with rfl | rfl | rfl | rfl | rfl | rfl | rfl
    · exact ⟨_, rfl, rfl⟩
    · exact ⟨_, rfl, rfl⟩
    · exact ⟨_, rfl, rfl⟩
    · exact ⟨_, rfl, rfl⟩
    · exact ⟨_, rfl, rfl⟩
    · exact ⟨_, rfl, rfl⟩
    · exact ⟨_, rfl, rfl⟩

/-- Witness for the amended C8: instantiated at a mapping-free deep-equal
pair and at the `undefined` representative. -/
theorem stableKey_amended_guarantees_witness :
    (objFree (JSValue.arr [.nan, .num 3]) = true ∧
      deepEqual (JSValue.arr [.nan, .num 3]) (JSValue.arr [.nan, .num 3]) ∧
      toKey (JSValue.arr [.nan, .num 3]) = toKey (JSValue.arr [.nan, .num 3])) ∧
    (JSValue.undef ∈ representativeValues ∧
      ∃ w, fromKey (toKey JSValue.undef) = some w ∧ deepEqual w JSValue.undef) := by
  have hmem : JSValue.undef ∈ representativeValues := by
    simp [representativeValues]
  exact ⟨⟨rfl, rfl, stableKey_amended_guarantees.1 _ _ rfl rfl rfl⟩,
    hmem, stableKey_amended_guarantees.2 JSValue.undef hmem⟩

/-! ## Reference reachability lemmas (claims C3, C4, C6) -/

theorem mem_mapSet {κ β : Type} [DecidableEq κ] {m : List (κ × β)} {k : κ}
    {v : β} {e : κ × β} (h : e ∈ mapSet m k v) : e = (k, v) ∨ e ∈ m := by
  induction m with
  | nil => simpa [mapSet] using h
  | cons e₀ rest ih =>
      obtain ⟨k₀, v₀⟩ := e₀
      by_cases h₀ : k₀ = k
      · simp only [mapSet, if_pos h₀, List.mem_cons] at h
        rcases h with h | h
        · exact Or.inl h
        · exact Or.inr (List.mem_cons_of_mem _ h)
      · simp only [mapSet, if_neg h₀, List.mem_cons] at h
        rcases h with h | h
        · exact Or.inr (List.mem_cons.2 (Or.inl h))
        · rcases ih h with h | h
          · exact Or.inl h
          · exact Or.inr (List.mem_cons_of_mem _ h)

theorem mapGet_dims_foldl (dims : List FilterDimension) :
    ∀ (init : List (String × List Key)) (arg : String),
    mapGet (dims.foldl (fun m d => mapSet m d.convexArg []) init) arg =
      if arg ∈ dims.map (·.convexArg) then some [] else mapGet init arg := by
  induction dims with
  | nil => intro init arg; simp
  | cons d rest ih =>
      intro init arg
      simp only [List.foldl_cons]
      rw [ih]
      by_cases h1 : arg ∈ rest.map (·.convexArg)
      · simp [h1]
      · by_cases h2 : arg = d.convexArg
        · simp [h1, h2, mapGet_mapSet_self]
        · have h2' : arg ≠ d.convexArg := h2
          simp [h1, h2, mapGet_mapSet_ne init ([] : List Key) h2']

theorem mapGet_addCompositeRefs_none :
    ∀ (ck : CompositeKey) (m : List (String × List Key)) (arg : String),
    mapGet m arg = none → mapGet (addCompositeRefs m ck) arg = none := by
  intro ck
  induction ck with
  | nil => intro m arg h; simpa [addCompositeRefs]
  | cons entry rest ih =>
      intro m arg h
      obtain ⟨a₀, vs₀⟩ := entry
      show mapGet (addCompositeRefs (match mapGet m a₀ with
        | some refSet => mapSet m a₀ (vs₀.foldl setAdd refSet)
        | none => m) rest) arg = none
      cases hget : mapGet m a₀ with
      | none => exact ih m arg h
      | some refSet =>
          apply ih
          by_cases ha : arg = a₀
          · subst ha
            rw [h] at hget
            exact absurd hget (by simp)
          · rw [mapGet_mapSet_ne m _ ha]
            exact h

theorem mapGet_addCompositeRefs_some :
    ∀ (ck : CompositeKey) (m : List (String × List Key)) (arg : String)
      (rs : List Key), mapGet m arg = some rs →
    ∃ rs', mapGet (addCompositeRefs m ck) arg = some rs' ∧
      ∀ k, (k ∈ rs' ↔ k ∈ rs ∨ ∃ vs, (arg, vs) ∈ ck ∧ k ∈ vs) := by
  intro ck
  induction ck with
  | nil =>
      intro m arg rs h
      exact ⟨rs, by simpa [addCompositeRefs], by simp⟩
  | cons entry rest ih =>
      intro m arg rs h
      obtain ⟨a₀, vs₀⟩ := entry
      show ∃ rs', mapGet (addCompositeRefs (match mapGet m a₀ with
        | some refSet => mapSet m a₀ (vs₀.foldl setAdd refSet)
        | none => m) rest) arg = some rs' ∧ _
      by_cases ha : arg = a₀
      · subst ha
        rw [h]
        obtain ⟨rs', hget', hmem'⟩ :=
          ih (mapSet m arg (vs₀.foldl setAdd rs)) arg (vs₀.foldl setAdd rs)
            (mapGet_mapSet_self m arg _)
        refine ⟨rs', hget', fun k => ?_⟩
        rw [hmem' k, mem_foldl_setAdd]
        constructor
        · rintro ((hk | hk) | ⟨vs, hvs, hk⟩)
          · exact Or.inl hk
          · exact Or.inr ⟨vs₀, List.mem_cons_self _ _, hk⟩
          · exact Or.inr ⟨vs, List.mem_cons_of_mem _ hvs, hk⟩
        · rintro (hk | ⟨vs, hvs, hk⟩)
          · exact Or.inl (Or.inl hk)
          · rcases List.mem_cons.1 hvs with heq | hvs'
            · obtain ⟨-, rfl⟩ := Prod.mk.injEq .. ▸ heq
              exact Or.inl (Or.inr hk)
            · exact Or.inr ⟨vs, hvs', hk⟩
      · have hget : mapGet (match mapGet m a₀ with
            | some refSet => mapSet m a₀ (vs₀.foldl setAdd refSet)
            | none => m) arg = some rs := by
          cases hg : mapGet m a₀ with
          | none => exact h
          | some refSet => rw [mapGet_mapSet_ne m _ ha]; exact h
        obtain ⟨rs', hget', hmem'⟩ := ih _ arg rs hget
        refine ⟨rs', hget', fun k => ?_⟩
        rw [hmem' k]
        constructor
        · rintro (hk | ⟨vs, hvs, hk⟩)
          · exact Or.inl hk
          · exact Or.inr ⟨vs, List.mem_cons_of_mem _ hvs, hk⟩
        · rintro (hk | ⟨vs, hvs, hk⟩)
          · exact Or.inl hk
          · rcases List.mem_cons.1 hvs with heq | hvs'
            · exact absurd (congrArg Prod.fst heq) ha
            · exact Or.inr ⟨vs, hvs', hk⟩

theorem mem_buildReferenced (dims : List FilterDimension)
    (R : List (CompositeKey × Nat)) (arg : String)
    (harg : arg ∈ dims.map (·.convexArg)) :
    ∃ rs, mapGet (buildReferenced dims R) arg = some rs ∧
      ∀ k, (k ∈ rs ↔ ∃ e ∈ R, ∃ vs, (arg, vs) ∈ e.1 ∧ k ∈ vs) := by
  have general : ∀ (R : List (CompositeKey × Nat))
      (m : List (String × List Key)) (rs : List Key), mapGet m arg = some rs →
      ∃ rs', mapGet (R.foldl (fun m e => addCompositeRefs m e.1) m) arg = some rs' ∧
        ∀ k, (k ∈ rs' ↔ k ∈ rs ∨ ∃ e ∈ R, ∃ vs, (arg, vs) ∈ e.1 ∧ k ∈ vs) := by
    intro R
    induction R with
    | nil => intro m rs h; exact ⟨rs, by simpa, by simp⟩
    | cons e rest ih =>
        intro m rs h
        simp only [List.foldl_cons]
        obtain ⟨rs₁, hget₁, hmem₁⟩ := mapGet_addCompositeRefs_some e.1 m arg rs h
        obtain ⟨rs', hget', hmem'⟩ := ih _ rs₁ hget₁
        refine ⟨rs', hget', fun k => ?_⟩
        rw [hmem' k, hmem₁ k]
        constructor
        · rintro ((hk | ⟨vs, hvs, hk⟩) | ⟨e', he', vs, hvs, hk⟩)
          · exact Or.inl hk
          · exact Or.inr ⟨e, List.mem_cons_self _ _, vs, hvs, hk⟩
          · exact Or.inr ⟨e', List.mem_cons_of_mem _ he', vs, hvs, hk⟩
        · rintro (hk | ⟨e', he', vs, hvs, hk⟩)
          · exact Or.inl (Or.inl hk)
          · rcases List.mem_cons.1 he' with rfl | he''
            · exact Or.inl (Or.inr ⟨vs, hvs, hk⟩)
            · exact Or.inr ⟨e', he'', vs, hvs, hk⟩
  have hinit : mapGet
      (dims.foldl (fun m d => mapSet m d.convexArg ([] : List Key)) [])
        arg = some [] := by
    rw [mapGet_dims_foldl dims [] arg, if_pos harg]
  obtain ⟨rs, hget, hmem⟩ := general R
    (dims.foldl (fun m d => mapSet m d.convexArg ([] : List Key)) []) [] hinit
  exact ⟨rs, hget, fun k => by simpa using hmem k⟩

theorem mapGet_map_filter_entry (l : List (String × List Key))
    (p : String → Key → Bool) (arg : String) :
    mapGet (l.map (fun e => (e.1, e.2.filter (p e.1)))) arg =
      (mapGet l arg).map (fun act => act.filter (p arg)) := by
  induction l with
  | nil => simp [mapGet]
  | cons e rest ih =>
      obtain ⟨k₀, v₀⟩ := e
      by_cases h₀ : k₀ = arg
      · subst h₀
        simp [mapGet]
      · simp [mapGet, h₀, ih]

theorem cleanup_refCounts (cfg : SMConfig) (s : SyncState) :
    (cleanupUnreferencedValues cfg s).refCounts = s.refCounts := by
  simp only [cleanupUnreferencedValues]
  split_ifs
  · rw [updateSubscription_refCounts]
  · rfl

theorem cleanup_activeDimensions (cfg : SMConfig) (s : SyncState) (arg : String) :
    mapGet (cleanupUnreferencedValues cfg s).activeDimensions arg =
      (mapGet s.activeDimensions arg).map (fun act => act.filter (fun k =>
        ((mapGet (buildReferenced cfg.filterDimensions s.refCounts) arg).getD
          []).contains k)) := by
  simp only [cleanupUnreferencedValues]
  split_ifs
  · rw [updateSubscription_activeDimensions]
    exact mapGet_map_filter_entry s.activeDimensions
      (fun a k =>
        ((mapGet (buildReferenced cfg.filterDimensions s.refCounts) a).getD
          []).contains k) arg
  · exact mapGet_map_filter_entry s.activeDimensions
      (fun a k =>
        ((mapGet (buildReferenced cfg.filterDimensions s.refCounts) a).getD
          []).contains k) arg

theorem releaseFilters_eq_cleanup (cfg : SMConfig) (s : SyncState)
    (filters : ExtractedFilters) (hdims : cfg.filterDimensions ≠ []) :
    releaseFilters cfg s filters =
      cleanupUnreferencedValues cfg
        { s with refCounts :=
            decrementRefCounts s.refCounts (createCompositeKey filters) } := by
  have hne : cfg.filterDimensions.isEmpty = false := by
    cases h : cfg.filterDimensions with
    | nil => exact absurd h hdims
    | cons d ds => rfl
  simp only [releaseFilters, hne, Bool.false_eq_true, if_false,
    decrementRefCounts]
  split_ifs <;> rfl

theorem decrementRefCounts_pos (R : List (CompositeKey × Nat))
    (ck : CompositeKey) (hpos : ∀ e ∈ R, 0 < e.2) :
    ∀ e ∈ decrementRefCounts R ck, 0 < e.2 := by
  intro e he
  simp only [decrementRefCounts] at he
  split_ifs at he with hc
  · exact hpos e (List.mem_of_mem_filter he)
  · rcases mem_mapSet he with rfl | hmem
    · simp only
      omega
    · exact hpos e hmem

theorem release_active_membership
    (cfg : SMConfig) (s : SyncState) (filters : ExtractedFilters) (arg : String)
    (act act' : List Key) (k : Key)
    (hdims : cfg.filterDimensions ≠ [])
    (harg : arg ∈ cfg.filterDimensions.map (·.convexArg))
    (hpos : ∀ e ∈ s.refCounts, 0 < e.2)
    (hact : mapGet s.activeDimensions arg = some act)
    (hact' : mapGet (releaseFilters cfg s filters).activeDimensions arg =
      some act') :
    k ∈ act' ↔ k ∈ act ∧
      reachableValue (releaseFilters cfg s filters).refCounts arg k := by
  have hposR : ∀ e ∈ decrementRefCounts s.refCounts (createCompositeKey filters),
      0 < e.2 := decrementRefCounts_pos _ _ hpos
  rw [releaseFilters_eq_cleanup cfg s filters hdims] at hact' ⊢
  rw [cleanup_refCounts]
  rw [cleanup_activeDimensions] at hact'
  obtain ⟨rs, hrs, hrsmem⟩ :=
    mem_buildReferenced cfg.filterDimensions
      (decrementRefCounts s.refCounts (createCompositeKey filters)) arg harg
  rw [hact, hrs] at hact'
  simp only [Option.map_some', Option.some.injEq] at hact'
  subst hact'
  simp only [Option.getD_some, List.mem_filter, List.elem_iff]
  constructor
  · rintro ⟨hk, hin⟩
    refine ⟨hk, ?_⟩
    rcases (hrsmem k).1 hin with ⟨e, he, vs, hvs, hkvs⟩
    exact ⟨e, he, hposR e he, vs, hvs, hkvs⟩
  · rintro ⟨hk, e, he, -, vs, hvs, hkvs⟩
    exact ⟨hk, (hrsmem k).2 ⟨e, he, vs, hvs, hkvs⟩⟩

/-- C3: after any `releaseFilters` call, a value remains in a configured
dimension's active set iff it was active before and is still reachable from
a surviving composite-key entry with positive reference count — in
particular a value shared with a still-referenced smaller combination
survives the release of a larger one. -/
theorem releaseFilters_active_iff_reachable
    (cfg : SMConfig) (s : SyncState) (filters : ExtractedFilters) (arg : String)
    (act act' : List Key) (k : Key)
    (hdims : cfg.filterDimensions ≠ [])
    (harg : arg ∈ cfg.filterDimensions.map (·.convexArg))
    (hpos : ∀ e ∈ s.refCounts, 0 < e.2)
    (hact : mapGet s.activeDimensions arg = some act)
    (hact' : mapGet (releaseFilters cfg s filters).activeDimensions arg =
      some act') :
    k ∈ act' ↔ k ∈ act ∧
      reachableValue (releaseFilters cfg s filters).refCounts arg k :=
  release_active_membership cfg s filters arg act act' k hdims harg hpos hact
    hact'

/-- Witness for C3, at the spec's own scenario: with {c1,c2} and {c1,c2,c3}
both referenced, releasing {c1,c2,c3} keeps c1 active because it stays
reachable through the surviving {c1,c2} entry. -/
theorem releaseFilters_active_iff_reachable_witness :
    toKey (JSValue.str "c1") ∈
        [toKey (JSValue.str "c1"), toKey (JSValue.str "c2")] ↔
      (toKey (JSValue.str "c1") ∈
          [toKey (JSValue.str "c1"), toKey (JSValue.str "c2"),
            toKey (JSValue.str "c3")] ∧
        reachableValue
          (releaseFilters cfgChannels stateBothCombos comboC123).refCounts
          "channelIds" (toKey (JSValue.str "c1"))) :=
  releaseFilters_active_iff_reachable cfgChannels stateBothCombos comboC123
    "channelIds"
    [toKey (JSValue.str "c1"), toKey (JSValue.str "c2"),
      toKey (JSValue.str "c3")]
    [toKey (JSValue.str "c1"), toKey (JSValue.str "c2")]
    (toKey (JSValue.str "c1"))
    (by decide) (by decide) (by decide) rfl rfl

theorem mergeActive_mapGet :
    ∀ (P : ExtractedFilters) (A : List (String × List Key)) (arg : String)
      (act : List Key),
    (P.map Prod.fst).Nodup → mapGet A arg = some act →
    ∃ act', mapGet (mergeActive A P) arg = some act' ∧
      ∀ k, (k ∈ act' ↔ k ∈ act ∨
        ∃ v ∈ (mapGet P arg).getD [], toKey v = k) := by
  intro P
  induction P with
  | nil =>
      intro A arg act _ hget
      exact ⟨act, by simpa [mergeActive], by simp [mapGet]⟩
  | cons entry rest ih =>
      intro A arg act hnd hget
      obtain ⟨a₀, vs₀⟩ := entry
      simp only [List.map_cons, List.nodup_cons] at hnd
      have hstep : mergeActive A ((a₀, vs₀) :: rest) =
          mergeActive (match mapGet A a₀ with
            | some activeSet =>
                mapSet A a₀ (vs₀.foldl (fun st v => setAdd st (toKey v)) activeSet)
            | none => A) rest := rfl
      rw [hstep]
      by_cases ha : arg = a₀
      · subst ha
        rw [hget]
        have hnone : mapGet rest arg = none := by
          rw [mapGet_eq_none_iff]
          exact hnd.1
        obtain ⟨act', hget', hmem'⟩ := ih
          (mapSet A arg (vs₀.foldl (fun st v => setAdd st (toKey v)) act)) arg
          (vs₀.foldl (fun st v => setAdd st (toKey v)) act) hnd.2
          (mapGet_mapSet_self A arg _)
        refine ⟨act', hget', fun k => ?_⟩
        rw [hmem' k, hnone]
        simp only [Option.getD_none, List.not_mem_nil, false_and, exists_false,
          or_false, mem_foldl_setAdd_toKey]
        show k ∈ act ∨ (∃ v ∈ vs₀, toKey v = k) ↔
          k ∈ act ∨ ∃ v ∈ (mapGet ((arg, vs₀) :: rest) arg).getD [], toKey v = k
        simp [mapGet]
      · have hget₁ : mapGet (match mapGet A a₀ with
            | some activeSet =>
                mapSet A a₀ (vs₀.foldl (fun st v => setAdd st (toKey v)) activeSet)
            | none => A) arg = some act := by
          cases hg : mapGet A a₀ with
          | none => exact hget
          | some activeSet => rw [mapGet_mapSet_ne A _ ha]; exact hget
        obtain ⟨act', hget', hmem'⟩ := ih _ arg act hnd.2 hget₁
        refine ⟨act', hget', fun k => ?_⟩
        rw [hmem' k]
        have hne₀ : ¬ a₀ = arg := fun h => ha h.symm
        have : mapGet ((a₀, vs₀) :: rest) arg = mapGet rest arg := by
          simp [mapGet, hne₀]
        rw [this]

theorem processFilterBatch_refCounts (cfg : SMConfig) (s : SyncState)
    (b : Bool) : (processFilterBatch cfg s b).refCounts = s.refCounts := by
  simp only [processFilterBatch]
  split_ifs <;>
    simp [markReadyAfter_refCounts, updateSubscription_refCounts]

theorem processFilterBatch_activeDimensions (cfg : SMConfig) (s : SyncState)
    (b : Bool) (hdims : cfg.filterDimensions ≠ []) :
    (processFilterBatch cfg s b).activeDimensions =
      mergeActive s.activeDimensions s.pendingFilters := by
  have hne : cfg.filterDimensions.isEmpty = false := by
    cases h : cfg.filterDimensions with
    | nil => exact absurd h hdims
    | cons d ds => rfl
  by_cases hp : s.pendingFilters.isEmpty
  · have hpnil : s.pendingFilters = [] := by
      cases h : s.pendingFilters with
      | nil => rfl
      | cons a l => rw [h] at hp; cases hp
    simp [processFilterBatch, hne, hp, hpnil, mergeActive]
  · simp only [processFilterBatch, hne, hp, Bool.false_eq_true, false_and,
      not_false_eq_true, and_true, if_false]
    split_ifs <;>
      simp [markReadyAfter_activeDimensions, updateSubscription_activeDimensions]

/-- Counterexample to C6: the requested value `c1` is a member of the
active set even though the only processing pass ever run had its backfill
*fail* (`backfillOk = false`) — membership is established by the
pending→active merge before the backfill query, not after its successful
completion (the unfired ready latch confirms no pass succeeded). -/
theorem active_before_backfill_counterexample :
    toKey (JSValue.str "c1") ∈
      (mapGet (processFilterBatch cfgChannels
        (requestFilters cfgChannels (initialState cfgChannels) comboC12).1
        false).activeDimensions "channelIds").getD [] ∧
    (processFilterBatch cfgChannels
        (requestFilters cfgChannels (initialState cfgChannels) comboC12).1
        false).markedReady = false := by
  exact ⟨by decide, rfl⟩

/-- C6 as amended: (i) the active set grows only at the pending→active merge
of a processing pass — membership after the pass is exactly prior membership
plus the taken pending values — *regardless* of whether the backfill that
follows succeeds (no rollback on failure); (ii) it shrinks under release
only when a value stops being reachable from every surviving composite key:
a value dropped by `releaseFilters` is unreachable afterwards. -/
theorem active_growth_merge_and_shrink_unreachable :
    (∀ (cfg : SMConfig) (s : SyncState) (backfillOk : Bool) (arg : String)
        (act : List Key),
      cfg.filterDimensions ≠ [] →
      (s.pendingFilters.map Prod.fst).Nodup →
      mapGet s.activeDimensions arg = some act →
      ∃ act', mapGet (processFilterBatch cfg s backfillOk).activeDimensions arg
          = some act' ∧
        ∀ k, (k ∈ act' ↔ k ∈ act ∨
          ∃ v ∈ (mapGet s.pendingFilters arg).getD [], toKey v = k)) ∧
    (∀ (cfg : SMConfig) (s : SyncState) (filters : ExtractedFilters)
        (arg : String) (act act' : List Key) (k : Key),
      cfg.filterDimensions ≠ [] →
      arg ∈ cfg.filterDimensions.map (·.convexArg) →
      (∀ e ∈ s.refCounts, 0 < e.2) →
      mapGet s.activeDimensions arg = some act →
      mapGet (releaseFilters cfg s filters).activeDimensions arg = some act' →
      k ∈ act → k ∉ act' →
      ¬ reachableValue (releaseFilters cfg s filters).refCounts arg k) := by
  constructor
  · intro cfg s backfillOk arg act hdims hnd hact
    rw [processFilterBatch_activeDimensions cfg s backfillOk hdims]
    exact mergeActive_mapGet s.pendingFilters s.activeDimensions arg act hnd hact
  · intro cfg s filters arg act act' k hdims harg hpos hact hact' hk hk'
    intro hreach
    exact hk' ((release_active_membership cfg s filters arg act act' k hdims
      harg hpos hact hact').2 ⟨hk, hreach⟩)

/-- Witness for the amended C6: from the fresh manager with {c1, c2}
requested (pending), a processing pass with a *failing* backfill still moves
both values into the active set; and in the {c1,c2}/{c1,c2,c3} release
scenario, `c3` was dropped and is indeed unreachable afterwards. -/
theorem active_growth_merge_and_shrink_unreachable_witness :
    (∃ act', mapGet (processFilterBatch cfgChannels
        (requestFilters cfgChannels (initialState cfgChannels) comboC12).1
        false).activeDimensions "channelIds" = some act' ∧
      ∀ k, (k ∈ act' ↔ k ∈ ([] : List Key) ∨
        ∃ v ∈ (mapGet (requestFilters cfgChannels (initialState cfgChannels)
            comboC12).1.pendingFilters "channelIds").getD [], toKey v = k)) ∧
    ¬ reachableValue
        (releaseFilters cfgChannels stateBothCombos comboC123).refCounts
        "channelIds" (toKey (JSValue.str "c3")) := by
  constructor
  · exact active_growth_merge_and_shrink_unreachable.1 cfgChannels
      (requestFilters cfgChannels (initialState cfgChannels) comboC12).1
      false "channelIds" [] (by decide) (by decide) rfl
  · exact active_growth_merge_and_shrink_unreachable.2 cfgChannels
      stateBothCombos comboC123 "channelIds"
      [toKey (JSValue.str "c1"), toKey (JSValue.str "c2"),
        toKey (JSValue.str "c3")]
      [toKey (JSValue.str "c1"), toKey (JSValue.str "c2")]
      (toKey (JSValue.str "c3"))
      (by decide) (by decide) (by decide) rfl rfl (by decide) (by decide)

theorem addPendingValues_state (activeSet : List Key) (convexArg : String) :
    ∀ (values : List JSValue) (s : SyncState) (hasNew : Bool),
    (addPendingValues activeSet convexArg (s, hasNew) values).1 =
      { s with pendingFilters :=
          (addPendingValues activeSet convexArg (s, hasNew) values).1.pendingFilters } := by
  intro values
  induction values with
  | nil => intro s hasNew; rfl
  | cons v vs ih =>
      intro s hasNew
      simp only [addPendingValues]
      split_ifs with h1 h2
      · exact ih s hasNew
      · exact ih s hasNew
      · exact ih _ true

theorem addPendingValues_pending_mem (activeSet : List Key) (convexArg : String) :
    ∀ (values : List JSValue) (s : SyncState) (hasNew : Bool) (arg : String)
      (v : JSValue),
    v ∈ (mapGet (addPendingValues activeSet convexArg
          (s, hasNew) values).1.pendingFilters arg).getD [] →
    v ∈ (mapGet s.pendingFilters arg).getD [] ∨
      (arg = convexArg ∧ activeSet.contains (toKey v) = false) := by
  intro values
  induction values with
  | nil => intro s hasNew arg v h; exact Or.inl h
  | cons v₀ vs ih =>
      intro s hasNew arg v h
      simp only [addPendingValues] at h
      split_ifs at h with h1 h2
      · exact ih s hasNew arg v h
      · exact ih s hasNew arg v h
      · rcases ih _ true arg v h with hmem | hnew
        · by_cases harg : arg = convexArg
          · subst harg
            rw [mapGet_mapSet_self] at hmem
            simp only [Option.getD_some, List.mem_append,
              List.mem_singleton] at hmem
            rcases hmem with hmem | rfl
            · exact Or.inl hmem
            · exact Or.inr ⟨rfl, by simpa using h1⟩
          · rw [mapGet_mapSet_ne _ _ harg] at hmem
            exact Or.inl hmem
        · exact Or.inr hnew

theorem addPendingValues_nodup (activeSet : List Key) (convexArg : String) :
    ∀ (values : List JSValue) (s : SyncState) (hasNew : Bool),
    (s.pendingFilters.map Prod.fst).Nodup →
    ((addPendingValues activeSet convexArg
      (s, hasNew) values).1.pendingFilters.map Prod.fst).Nodup := by
  intro values
  induction values with
  | nil => intro s hasNew h; exact h
  | cons v₀ vs ih =>
      intro s hasNew h
      simp only [addPendingValues]
      split_ifs with h1 h2
      · exact ih s hasNew h
      · exact ih s hasNew h
      · exact ih _ true (nodup_fst_mapSet _ _ _ h)

theorem requestLoop_facts (cfg : SMConfig) :
    ∀ (entries : List (String × List JSValue)) (s : SyncState) (hasNew : Bool)
      (s₁ : SyncState) (b : Bool),
    requestLoop cfg s hasNew entries = (s₁, .ok b) →
    (s₁ = { s with pendingFilters := s₁.pendingFilters }) ∧
    ((s.pendingFilters.map Prod.fst).Nodup →
      (s₁.pendingFilters.map Prod.fst).Nodup) ∧
    (∀ arg v, v ∈ (mapGet s₁.pendingFilters arg).getD [] →
      v ∈ (mapGet s.pendingFilters arg).getD [] ∨
        ∃ act, mapGet s.activeDimensions arg = some act ∧
          act.contains (toKey v) = false) := by
  intro entries
  induction entries with
  | nil =>
      intro s hasNew s₁ b hreq
      simp only [requestLoop, Prod.mk.injEq] at hreq
      obtain ⟨rfl, -⟩ := hreq
      exact ⟨rfl, fun h => h, fun arg v h => Or.inl h⟩
  | cons entry rest ih =>
      intro s hasNew s₁ b hreq
      obtain ⟨convexArg, values⟩ := entry
      simp only [requestLoop] at hreq
      cases hget : mapGet s.activeDimensions convexArg with
      | none =>
          simp only [hget] at hreq
          exact ih s hasNew s₁ b hreq
      | some activeSet =>
          simp only [hget] at hreq
          split at hreq
          · simp at hreq
          · obtain ⟨hstate, hnodup, hpmem⟩ := ih _ _ s₁ b hreq
            have h1 := addPendingValues_state activeSet convexArg values s hasNew
            constructor
            · calc s₁ = { (addPendingValues activeSet convexArg
                    (s, hasNew) values).1 with
                  pendingFilters := s₁.pendingFilters } := hstate
                _ = { s with pendingFilters := s₁.pendingFilters } := by rw [h1]
            constructor
            · intro h
              exact hnodup (addPendingValues_nodup activeSet convexArg values
                s hasNew h)
            · intro arg v hv
              have hadim : (addPendingValues activeSet convexArg
                  (s, hasNew) values).1.activeDimensions =
                  s.activeDimensions := by rw [h1]
              rcases hpmem arg v hv with hnext | ⟨act, hactget, hcont⟩
              · rcases addPendingValues_pending_mem activeSet convexArg values
                    s hasNew arg v hnext with hmem | ⟨rfl, hcont⟩
                · exact Or.inl hmem
                · exact Or.inr ⟨activeSet, hget, hcont⟩
              · rw [hadim] at hactget
                exact Or.inr ⟨act, hactget, hcont⟩

theorem requestFilters_ok_facts (cfg : SMConfig) (s : SyncState)
    (filters : ExtractedFilters) (s₁ : SyncState) (b : Bool)
    (hdims : cfg.filterDimensions ≠ [])
    (hreq : requestFilters cfg s filters = (s₁, .ok b)) :
    s₁.activeDimensions = s.activeDimensions ∧
    s₁.refCounts = mapSet s.refCounts (createCompositeKey filters)
      ((mapGet s.refCounts (createCompositeKey filters)).getD 0 + 1) ∧
    ((s.pendingFilters.map Prod.fst).Nodup →
      (s₁.pendingFilters.map Prod.fst).Nodup) ∧
    (∀ arg v, v ∈ (mapGet s₁.pendingFilters arg).getD [] →
      v ∈ (mapGet s.pendingFilters arg).getD [] ∨
        ∃ act, mapGet s.activeDimensions arg = some act ∧
          act.contains (toKey v) = false) := by
  have hne : cfg.filterDimensions.isEmpty = false := by
    cases h : cfg.filterDimensions with
    | nil => exact absurd h hdims
    | cons d ds => rfl
  simp only [requestFilters, hne, Bool.false_eq_true, if_false] at hreq
  obtain ⟨hstate, hnodup, hpmem⟩ := requestLoop_facts cfg filters _ false s₁ b hreq
  refine ⟨?_, ?_, hnodup, hpmem⟩
  · rw [hstate]
  · rw [hstate]

theorem decrement_after_increment (R : List (CompositeKey × Nat))
    (ck : CompositeKey) (hpos : ∀ e ∈ R, 0 < e.2) :
    decrementRefCounts (mapSet R ck ((mapGet R ck).getD 0 + 1)) ck = R := by
  cases hg : mapGet R ck with
  | none =>
      have hset : mapGet (mapSet R ck 1) ck = some 1 := mapGet_mapSet_self R ck 1
      simp only [decrementRefCounts, hg, Option.getD_none, Nat.zero_add, hset,
        Option.getD_some]
      norm_num
      rw [mapSet_of_get_none R 1 hg, mapDelete_append_single,
        mapDelete_of_get_none R hg]
  | some c =>
      have hcpos : 0 < c := hpos (ck, c) (mem_of_mapGet_eq_some hg)
      have hset : mapGet (mapSet R ck (c + 1)) ck = some (c + 1) :=
        mapGet_mapSet_self R ck (c + 1)
      simp only [decrementRefCounts, hg, Option.getD_some, hset]
      have harith : ((c + 1 : Nat) : Int) - 1 = (c : Int) := by push_cast; ring
      rw [harith]
      have hnle : ¬ ((c : Int) ≤ 0) := by exact_mod_cast Nat.not_le.2 hcpos
      rw [if_neg hnle]
      have htn : ((c : Int)).toNat = c := Int.toNat_natCast c
      rw [htn, mapSet_mapSet, mapSet_self R hg]

theorem mergeActive_map_fst :
    ∀ (P : ExtractedFilters) (A : List (String × List Key)),
    (mergeActive A P).map Prod.fst = A.map Prod.fst := by
  intro P
  induction P with
  | nil => intro A; rfl
  | cons entry rest ih =>
      intro A
      obtain ⟨a₀, vs₀⟩ := entry
      have hstep : mergeActive A ((a₀, vs₀) :: rest) =
          mergeActive (match mapGet A a₀ with
            | some activeSet =>
                mapSet A a₀ (vs₀.foldl (fun st v => setAdd st (toKey v)) activeSet)
            | none => A) rest := rfl
      rw [hstep]
      cases hg : mapGet A a₀ with
      | none => exact ih A
      | some activeSet =>
          rw [ih]
          exact mapSet_map_fst_of_get A _ (by rw [hg]; rfl)

theorem cleanup_map_fst (cfg : SMConfig) (s : SyncState) :
    (cleanupUnreferencedValues cfg s).activeDimensions.map Prod.fst =
      s.activeDimensions.map Prod.fst := by
  simp only [cleanupUnreferencedValues]
  split_ifs <;>
    simp [updateSubscription_activeDimensions, List.map_map, Function.comp]

/-- C4: from a quiescent state (empty pending buffer) satisfying the
reference-tracking invariants (positive counts; a configured dimension's
active values are exactly the values reachable from surviving composite
keys), `requestFilters f` followed by the debounced processing pass (backfill
allowed to complete) followed by `releaseFilters f` with the identical
argument restores the reference counts exactly and every dimension's active
set to exactly its prior membership: no leak, no premature eviction. -/
theorem request_process_release_roundtrip
    (cfg : SMConfig) (s : SyncState) (filters : ExtractedFilters)
    (s₁ : SyncState) (b : Bool)
    (hdims : cfg.filterDimensions ≠ [])
    (hpend : s.pendingFilters = [])
    (hpos : ∀ e ∈ s.refCounts, 0 < e.2)
    (hinv : ∀ arg act, mapGet s.activeDimensions arg = some act →
      arg ∈ cfg.filterDimensions.map (·.convexArg) ∧
      ∀ k, (k ∈ act ↔ ∃ e ∈ s.refCounts, ∃ vs, (arg, vs) ∈ e.1 ∧ k ∈ vs))
    (hreq : requestFilters cfg s filters = (s₁, .ok b)) :
    (releaseFilters cfg (processFilterBatch cfg s₁ true) filters).refCounts =
      s.refCounts ∧
    (releaseFilters cfg (processFilterBatch cfg s₁ true)
        filters).activeDimensions.map Prod.fst =
      s.activeDimensions.map Prod.fst ∧
    (∀ arg act, mapGet s.activeDimensions arg = some act →
      ∃ act', mapGet (releaseFilters cfg (processFilterBatch cfg s₁ true)
          filters).activeDimensions arg = some act' ∧
        ∀ k, (k ∈ act' ↔ k ∈ act)) := by
  obtain ⟨hadim, hrc, hnodup, hpmem⟩ :=
    requestFilters_ok_facts cfg s filters s₁ b hdims hreq
  have hs₂rc : (processFilterBatch cfg s₁ true).refCounts = s₁.refCounts :=
    processFilterBatch_refCounts cfg s₁ true
  have hs₂act : (processFilterBatch cfg s₁ true).activeDimensions =
      mergeActive s₁.activeDimensions s₁.pendingFilters :=
    processFilterBatch_activeDimensions cfg s₁ true hdims
  have hdec : decrementRefCounts (processFilterBatch cfg s₁ true).refCounts
      (createCompositeKey filters) = s.refCounts := by
    rw [hs₂rc, hrc]
    exact decrement_after_increment s.refCounts _ hpos
  rw [releaseFilters_eq_cleanup cfg _ filters hdims]
  refine ⟨?_, ?_, ?_⟩
  · rw [cleanup_refCounts]
    exact hdec
  · rw [cleanup_map_fst]
    show (processFilterBatch cfg s₁ true).activeDimensions.map Prod.fst =
      s.activeDimensions.map Prod.fst
    rw [hs₂act, mergeActive_map_fst, hadim]
  · intro arg act hact
    have harg := (hinv arg act hact).1
    have hmemact := (hinv arg act hact).2
    have hact₁ : mapGet s₁.activeDimensions arg = some act := by
      rw [hadim]; exact hact
    have hnd₁ : (s₁.pendingFilters.map Prod.fst).Nodup := by
      refine hnodup ?_
      rw [hpend]
      exact List.nodup_nil
    obtain ⟨actM, hgetM, hmemM⟩ := mergeActive_mapGet s₁.pendingFilters
      s₁.activeDimensions arg act hnd₁ hact₁
    have hgetT : mapGet (processFilterBatch cfg s₁ true).activeDimensions arg =
        some actM := by rw [hs₂act]; exact hgetM
    obtain ⟨rs, hrs, hrsmem⟩ :=
      mem_buildReferenced cfg.filterDimensions s.refCounts arg harg
    refine ⟨actM.filter (fun k => rs.contains k), ?_, ?_⟩
    · rw [cleanup_activeDimensions]
      show (mapGet (processFilterBatch cfg s₁ true).activeDimensions arg).map
          (fun a => a.filter (fun k =>
            ((mapGet (buildReferenced cfg.filterDimensions
              (decrementRefCounts (processFilterBatch cfg s₁ true).refCounts
                (createCompositeKey filters))) arg).getD []).contains k)) =
        some (actM.filter (fun k => rs.contains k))
      rw [hgetT, hdec, hrs]
      simp
    · intro k
      have hrs_act : k ∈ rs ↔ k ∈ act := by
        rw [hrsmem k, ← hmemact k]
      simp only [List.mem_filter, List.elem_iff]
      constructor
      · rintro ⟨-, hkrs⟩
        exact hrs_act.1 hkrs
      · intro hk
        refine ⟨(hmemM k).2 (Or.inl hk), hrs_act.2 hk⟩

/-- Witness for C4: from the fresh manager, request {c1, c2}, let the pass
complete, release {c1, c2}: the reference counts return to their prior value
and the channel dimension's active set returns to its prior (empty)
membership. -/
theorem request_process_release_roundtrip_witness :
    (releaseFilters cfgChannels
        (processFilterBatch cfgChannels
          (requestFilters cfgChannels (initialState cfgChannels) comboC12).1
          true)
        comboC12).refCounts = (initialState cfgChannels).refCounts ∧
    ∃ act', mapGet (releaseFilters cfgChannels
        (processFilterBatch cfgChannels
          (requestFilters cfgChannels (initialState cfgChannels) comboC12).1
          true)
        comboC12).activeDimensions "channelIds" = some act' ∧
      (toKey (JSValue.str "c1") ∈ act' ↔
        toKey (JSValue.str "c1") ∈ ([] : List Key)) := by
  have hinv : ∀ arg act,
      mapGet (initialState cfgChannels).activeDimensions arg = some act →
      arg ∈ cfgChannels.filterDimensions.map (·.convexArg) ∧
      ∀ k, (k ∈ act ↔ ∃ e ∈ (initialState cfgChannels).refCounts,
        ∃ vs, (arg, vs) ∈ e.1 ∧ k ∈ vs) := by
    intro arg act h
    simp only [initialState, cfgChannels, List.foldl_cons, List.foldl_nil,
      mapSet, mapGet] at h
    split_ifs at h with hc
    · obtain rfl := hc
      obtain rfl : ([] : List Key) = act := by simpa using h
      constructor
      · simp [cfgChannels]
      · intro k
        simp [initialState]
  obtain ⟨h1, h2, h3⟩ := request_process_release_roundtrip cfgChannels
    (initialState cfgChannels) comboC12
    (requestFilters cfgChannels (initialState cfgChannels) comboC12).1 true
    (by decide) rfl (by simp [initialState]) hinv rfl
  refine ⟨h1, ?_⟩
  obtain ⟨act', hga, hiff⟩ := h3 "channelIds" [] rfl
  exact ⟨act', hga, hiff _⟩
